import Mathlib

/-!
# WatchThatDir: event classification, debouncing, command preparation, post-processing

A shallow embedding of the Go sources (`events.go`, `utils.go`, `command.go`,
`worker.go`, `config.go`, `main.go`) together with the properties of the
specification that are settled against them.

Conventions of the embedding.

* A Go `string` is a list of characters (`Str`).  The case tables of package
  `unicode` behind `strings.ToLower` and `strings.EqualFold` are a parameter
  (`CaseTables`); they are fixed only on the ASCII characters.
* Path functions of `path/filepath` follow the Unix rules (separator `/`, no
  volume names).
* Go `int` values that are only compared or copied are integers; instants are
  integers counting nanoseconds.  A `time.Duration` is a 64-bit integer: the
  product of a number with `time.Millisecond` wraps around, and the
  difference of two instants saturates at the least and greatest duration.
* A Go `[]string` is the nil slice or a slice with elements (`Slice`); only
  `reflect.DeepEqual` tells the nil slice from a slice without elements.
* State the Go code keeps in globals or on disk is passed explicitly: the
  debounce registry, the sequence of tasks sent on the queue, the filesystem.
* The filesystem holds directories and regular files under absolute clean
  paths, without links.  The system calls follow a path as it is written,
  element by element: every element is looked up in a directory that exists.
-/

namespace WatchThatDir

/-! ## Strings -/

/-- A Go string, as the list of its characters. -/
abbrev Str := List Char

/-- The case tables of package `unicode`, as far as the code depends on
them: `toLower` is `unicode.ToLower`, and `foldEq c d` tells whether `c` and
`d` are equal under simple case folding, that is, whether
`unicode.SimpleFold` leads from one to the other.  On ASCII characters both
are the mapping of the ASCII letters. -/
structure CaseTables where
  toLower : Char → Char
  foldEq : Char → Char → Bool
  toLower_ascii : ∀ c : Char, c.toNat < 128 → toLower c = c.toLower
  foldEq_ascii : ∀ c d : Char, c.toNat < 128 → d.toNat < 128 →
    foldEq c d = (c.toLower == d.toLower)

/-- The case tables cut down to the ASCII letters; on ASCII strings they
give what the tables of package `unicode` give. -/
def asciiCase : CaseTables where
  toLower := Char.toLower
  foldEq := fun c d => c.toLower == d.toLower
  toLower_ascii := fun _ _ => rfl
  foldEq_ascii := fun _ _ _ _ => rfl

/-- The lower case of a character by the ASCII letters and one entry of
package `unicode` beyond them: `É` (U+00C9) has the lower case `é` (U+00E9). -/
def latinLower (c : Char) : Char := if c = 'É' then 'é' else c.toLower

/-- A representative of the characters that fold with a character: as
`latinLower`, and the long s `ſ` (U+017F) folds with `s` and `S`. -/
def latinFold (c : Char) : Char :=
  if c = 'É' then 'é' else if c = 'ſ' then 's' else c.toLower

/-- The case tables with these entries of package `unicode` beyond ASCII. -/
def latinCase : CaseTables where
  toLower := latinLower
  foldEq := fun c d => latinFold c == latinFold d
  toLower_ascii := by
    intro c hc
    have h1 : c ≠ 'É' := by
      rintro rfl
      revert hc
      decide
    simp [latinLower, h1]
  foldEq_ascii := by
    intro c d hc hd
    have h1 : c ≠ 'É' := by
      rintro rfl
      revert hc
      decide
    have h2 : c ≠ 'ſ' := by
      rintro rfl
      revert hc
      decide
    have h3 : d ≠ 'É' := by
      rintro rfl
      revert hd
      decide
    have h4 : d ≠ 'ſ' := by
      rintro rfl
      revert hd
      decide
    simp [latinFold, h1, h2, h3, h4]

namespace Strings

/-- Model of `strings.ToLower`: every character mapped by `unicode.ToLower`. -/
def toLower (u : CaseTables) (s : Str) : Str := s.map u.toLower

/-- Model of `strings.EqualFold`: the strings have the same length and are,
character by character, equal under simple case folding. -/
def equalFold (u : CaseTables) : Str → Str → Bool
  | [], [] => true
  | c :: s, d :: t => u.foldEq c d && equalFold u s t
  | _, _ => false

/-- Model of `unicode.IsSpace`: the white space characters. -/
def isSpace (c : Char) : Bool :=
  let n := c.toNat
  n == 0x09 || n == 0x0A || n == 0x0B || n == 0x0C || n == 0x0D || n == 0x20 ||
  n == 0x85 || n == 0xA0 || n == 0x1680 || (0x2000 ≤ n && n ≤ 0x200A) ||
  n == 0x2028 || n == 0x2029 || n == 0x202F || n == 0x205F || n == 0x3000

/-- Model of `strings.TrimSpace`: leading and trailing white space removed. -/
def trimSpace (s : Str) : Str :=
  ((s.dropWhile isSpace).reverse.dropWhile isSpace).reverse

/-- Model of `strings.HasPrefix`. -/
def hasPrefix : Str → Str → Bool
  | _, [] => true
  | [], _ :: _ => false
  | c :: s, d :: p => c == d && hasPrefix s p

/-- Model of `strings.Contains`: `sub` occurs in `s` as a contiguous run. -/
def contains : Str → Str → Bool
  | [], sub => sub.isEmpty
  | c :: s, sub => hasPrefix (c :: s) sub || contains s sub

/-- Model of `strings.ReplaceAll(s, "*", "")`: every `*` removed. -/
def removeStars (s : Str) : Str := s.filter (fun c => c != '*')

/-- The scan of `strings.Split` for a non-empty separator: `skip` is the
number of characters of a separator just found that are still to be passed,
`cur` holds the characters of the current part, last one first. -/
def splitScan (sep : Str) : Nat → Str → Str → List Str
  | _, [], cur => [cur.reverse]
  | skip + 1, _ :: s, cur => splitScan sep skip s cur
  | 0, c :: s, cur =>
    if hasPrefix (c :: s) sep then cur.reverse :: splitScan sep (sep.length - 1) s []
    else splitScan sep 0 s (c :: cur)

/-- Model of `strings.Split(s, sep)` for a non-empty separator: the parts
between the occurrences of `sep`, found from the left without overlap. -/
def split (s sep : Str) : List Str := splitScan sep 0 s []

end Strings

/-! ## Paths (`path/filepath`, Unix rules) -/

namespace Filepath

/-- Model of `filepath.IsAbs`: the path starts with the separator. -/
def isAbs : Str → Bool
  | '/' :: _ => true
  | _ => false

/-- The elements of a path between separators (empty elements kept). -/
def splitSlash : Str → List Str
  | [] => [[]]
  | c :: s =>
    if c = '/' then [] :: splitSlash s
    else match splitSlash s with
      | h :: r => (c :: h) :: r
      | [] => [[c]]

/-- One element of the scan of `filepath.Clean`; `out` is the stack of kept
elements, last one first. -/
def cleanStep (rooted : Bool) (out : List Str) (e : Str) : List Str :=
  if e = [] ∨ e = ['.'] then out
  else if e = ['.', '.'] then
    match out with
    | top :: rest => if top = ['.', '.'] then e :: out else rest
    | [] => if rooted then [] else [e]
  else e :: out

/-- Path elements put together with separators between them. -/
def joinSlash : List Str → Str
  | [] => []
  | [e] => e
  | e :: f :: rest => e ++ '/' :: joinSlash (f :: rest)

/-- Model of `filepath.Clean`. -/
def clean (p : Str) : Str :=
  let rooted := isAbs p
  let out := (splitSlash p).foldl (cleanStep rooted) []
  let body := joinSlash out.reverse
  if rooted then '/' :: body
  else if body = [] then ['.'] else body

/-- Model of `filepath.Join` on two elements. -/
def join (a b : Str) : Str :=
  if a ≠ [] then clean (a ++ '/' :: b)
  else if b ≠ [] then clean b
  else []

/-- Model of `filepath.Base`: the last element of the path. -/
def base (p : Str) : Str :=
  if p = [] then ['.']
  else
    let q := (p.reverse.dropWhile (fun c => c == '/'))
    let last := (q.takeWhile (fun c => c != '/')).reverse
    if last = [] then ['/'] else last

/-- Model of `filepath.Dir`: everything but the last element, cleaned. -/
def dir (p : Str) : Str :=
  clean (p.reverse.dropWhile (fun c => c != '/')).reverse

/-- The scan of `filepath.Ext` from the end of the path; `acc` holds the
characters already passed. -/
def extScan : Str → Str → Str
  | [], _ => []
  | c :: rest, acc =>
    if c = '/' then []
    else if c = '.' then '.' :: acc
    else extScan rest (c :: acc)

/-- Model of `filepath.Ext`: the suffix from the last dot of the last
element, empty when there is no dot. -/
def ext (p : Str) : Str := extScan p.reverse []

/-- Model of `filepath.Abs`; `getwd` is the result of `os.Getwd`, `none` when
it fails. -/
def abs (getwd : Option Str) (p : Str) : Option Str :=
  if isAbs p then some (clean p)
  else match getwd with
    | some wd => some (join wd p)
    | none => none

end Filepath

/-! ## Configuration (`config.go`) -/

/-- A Go `[]string`: the nil slice, or a slice holding the given elements
(possibly none).  `len` and `range` see the elements only;
`reflect.DeepEqual` tells the nil slice from a slice without elements. -/
inductive Slice where
  | nil
  | of (elems : List Str)
  deriving DecidableEq

/-- The elements of a slice; the nil slice has none. -/
def Slice.elems : Slice → List Str
  | Slice.nil => []
  | Slice.of l => l

/-- The settings of `Config`, field for field. -/
structure Config where
  TargetPath : Str
  ProcessedPath : Str
  MaxWorkers : Int
  PostProcessAction : Int
  FileTypes : Slice
  ProcessOnStart : Bool
  LogPath : Str
  EnableLog : Bool
  InitRun : Slice
  ExitRun : Slice
  OnCreateRun : Slice
  OnModifyRun : Slice
  OnRenameRun : Slice
  OnRemoveRun : Slice
  Debounce : Int
  ExcludePaths : Slice
  ReloadConfig : Int
  CheckInterval : Int
  deriving DecidableEq

/-- An `EventType` is a string. -/
abbrev EventType := Str

def CreateEvent : EventType := "create".toList
def RenameEvent : EventType := "rename".toList
def WriteEvent : EventType := "write".toList
def RemoveEvent : EventType := "remove".toList

def PostProcessActionDoNothing : Int := 0
def PostProcessActionMove : Int := 1
def PostProcessActionDelete : Int := -1

/-- The default configuration `loadConfig` starts from. -/
def defaultConfig : Config where
  TargetPath := "targetpath".toList
  ProcessedPath := "completed".toList
  MaxWorkers := 1
  PostProcessAction := PostProcessActionDoNothing
  FileTypes := Slice.nil
  ProcessOnStart := true
  LogPath := "FileEventsHandler.log".toList
  EnableLog := false
  InitRun := Slice.nil
  ExitRun := Slice.nil
  OnCreateRun := Slice.nil
  OnModifyRun := Slice.nil
  OnRenameRun := Slice.nil
  OnRemoveRun := Slice.nil
  Debounce := 100
  ExcludePaths := Slice.nil
  ReloadConfig := 0
  CheckInterval := 5

/-! ## Path and extension filters (`utils.go`) -/

/-- The loop of `isExcludedPath` over the exclusion patterns, for the
absolute path `absPath`. -/
def excludedBy (u : CaseTables) (absPath : Str) : List Str → Bool
  | [] => false
  | excludePattern :: rest =>
    let cleanedExcludePattern := Strings.trimSpace (Strings.removeStars excludePattern)
    if Strings.equalFold u absPath cleanedExcludePattern then true
    else if Strings.contains (Strings.toLower u absPath)
        (Strings.toLower u cleanedExcludePattern) then true
    else excludedBy u absPath rest

/-- Embedding of `isExcludedPath`; `getwd` is what `os.Getwd` returns when
`filepath.Abs` asks for it. -/
def isExcludedPath (u : CaseTables) (getwd : Option Str) (path : Str) (config : Config) :
    Bool :=
  match Filepath.abs getwd path with
  | none => false
  | some absPath => excludedBy u absPath config.ExcludePaths.elems

/-- The loop of `isAllowedFileType` over the allowed types. -/
def extAllowed (u : CaseTables) (ext : Str) : List Str → Bool
  | [] => false
  | t :: rest => if ext = Strings.toLower u t then true else extAllowed u ext rest

/-- Embedding of `isAllowedFileType`. -/
def isAllowedFileType (u : CaseTables) (filename : Str) (allowedTypes : List Str) : Bool :=
  if allowedTypes.length = 0 then true
  else extAllowed u (Strings.toLower u (Filepath.ext filename)) allowedTypes

/-! ## Event handling (`events.go`) -/

/-- The debounce registry `lastEventTimes`: path to instant (nanoseconds). -/
abbrev Registry := Str → Option Int

/-- The duration `time.Millisecond`, in nanoseconds. -/
def Millisecond : Int := 1000000

/-- The least `time.Duration`. -/
def minDuration : Int := -9223372036854775808

/-- The greatest `time.Duration`. -/
def maxDuration : Int := 9223372036854775807

/-- The value a 64-bit signed integer takes when arithmetic overflows. -/
def wrap64 (x : Int) : Int :=
  (x + 9223372036854775808) % 18446744073709551616 - 9223372036854775808

/-- Model of `time.Duration(n) * time.Millisecond`: the product in 64-bit
arithmetic. -/
def milliseconds (n : Int) : Int := wrap64 (n * Millisecond)

/-- Model of `t.Sub(u)` on instants: the difference, or the greatest or
least duration when the difference does not fit. -/
def timeSub (t u : Int) : Int :=
  if t - u > maxDuration then maxDuration
  else if t - u < minDuration then minDuration
  else t - u

/-- What `os.Stat` reports for an event path. -/
inductive StatResult where
  | error
  | dir
  | regular
  | other
  deriving DecidableEq

/-- The state the event loop works on: the debounce registry, the tasks sent
on `taskQueue` (oldest first), and the watch requests made for new
directories. -/
structure State where
  lastEventTimes : Registry
  taskQueue : List Str
  watches : List Str

/-- Embedding of `shouldProcessEvent`, with `now` the reading of
`time.Now()`: the verdict and the registry afterwards. -/
def shouldProcessEvent (now : Int) (eventPath : Str) (config : Config)
    (lastEventTimes : Registry) : Bool × Registry :=
  match lastEventTimes eventPath with
  | none => (true, fun p => if p = eventPath then some now else lastEventTimes p)
  | some lastEventTime =>
    if timeSub now lastEventTime ≥ milliseconds config.Debounce then
      (true, fun p => if p = eventPath then some now else lastEventTimes p)
    else (false, lastEventTimes)

/-- The debounce test followed by the send on the queue, as it ends each
handler: `if shouldProcessEvent(..) { taskQueue <- eventPath + suffix }`. -/
def debounceAndSend (now : Int) (eventPath : Str) (suffix : Str) (config : Config)
    (st : State) : State :=
  match shouldProcessEvent now eventPath config st.lastEventTimes with
  | (true, reg) => { st with lastEventTimes := reg, taskQueue := st.taskQueue ++ [eventPath ++ suffix] }
  | (false, reg) => { st with lastEventTimes := reg }

/-- Embedding of `watchNewDirectory`: the recursive watch request is recorded. -/
def watchNewDirectory (dirPath : Str) (st : State) : State :=
  { st with watches := st.watches ++ [dirPath ++ "/...".toList] }

/-- Embedding of `handleCreateEvent`; `fi` is the result of `os.Stat`. -/
def handleCreateEvent (u : CaseTables) (getwd : Option Str) (fi : StatResult) (now : Int)
    (eventPath : Str) (config : Config) (st : State) : State :=
  if isExcludedPath u getwd eventPath config then st
  else match fi with
    | .error => st
    | .dir => watchNewDirectory eventPath st
    | .regular =>
      if isAllowedFileType u eventPath config.FileTypes.elems then
        if config.OnCreateRun.elems.length > 0 then
          debounceAndSend now eventPath "?event=create".toList config st
        else st
      else st
    | .other => st

/-- Embedding of `handleRenameEvent`. -/
def handleRenameEvent (u : CaseTables) (getwd : Option Str) (fi : StatResult) (now : Int)
    (eventPath : Str) (config : Config) (st : State) : State :=
  if isExcludedPath u getwd eventPath config then st
  else match fi with
    | .error => st
    | .dir => watchNewDirectory eventPath st
    | .regular =>
      if isAllowedFileType u eventPath config.FileTypes.elems then
        if config.OnRenameRun.elems.length > 0 then
          debounceAndSend now eventPath "?event=rename".toList config st
        else st
      else st
    | .other => st

/-- Embedding of `handleWriteEvent`. -/
def handleWriteEvent (u : CaseTables) (now : Int) (eventPath : Str) (config : Config)
    (st : State) : State :=
  if isAllowedFileType u eventPath config.FileTypes.elems then
    if config.OnModifyRun.elems.length > 0 then
      debounceAndSend now eventPath "?event=write".toList config st
    else st
  else st

/-- Embedding of `handleRemoveEvent`. -/
def handleRemoveEvent (eventPath : Str) (config : Config) (st : State) : State :=
  if config.OnRemoveRun.elems.length > 0 then
    { st with taskQueue := st.taskQueue ++ [eventPath ++ "?event=remove".toList] }
  else st

/-- The event kinds of the notification source. -/
inductive Notify where
  | Create
  | Rename
  | Write
  | Remove
  deriving DecidableEq

/-- One event read from `watcherChannel`, with what the handler observes
while it runs: the `os.Stat` result and the clock reading. -/
structure Occurrence where
  path : Str
  kind : Notify
  fi : StatResult
  now : Int

/-- The body of the loop of `handleEvents` for one event. -/
def handleEvent (u : CaseTables) (getwd : Option Str) (config : Config) (st : State)
    (ev : Occurrence) : State :=
  match ev.kind with
  | .Create => handleCreateEvent u getwd ev.fi ev.now ev.path config st
  | .Rename => handleRenameEvent u getwd ev.fi ev.now ev.path config st
  | .Write => handleWriteEvent u ev.now ev.path config st
  | .Remove => handleRemoveEvent ev.path config st

/-- Embedding of `handleEvents`: the events are handled in the order read. -/
def handleEvents (u : CaseTables) (getwd : Option Str) (config : Config) (st : State)
    (events : List Occurrence) : State :=
  events.foldl (handleEvent u getwd config) st

/-! ## The filesystem

The files and directories that exist, keyed by absolute clean path, and the
operations of package `os` the worker uses.  The system follows a path as it
is written, element by element, through directories that exist; there are
no symbolic links and no permissions, and the root directory always exists. -/

/-- What exists at a path. -/
inductive Node where
  | file
  | dir
  deriving DecidableEq

/-- The existing entries; the first entry for a path is the one in effect. -/
abbrev FS := List (Str × Node)

namespace FS

/-- The root directory. -/
def root : Str := ['/']

/-- First entry recorded for `p`. -/
def lookup : FS → Str → Option Node
  | [], _ => none
  | (q, n) :: rest, p => if q = p then some n else lookup rest p

/-- What exists at the absolute path `p`. -/
def node (fs : FS) (p : Str) : Option Node :=
  if p = root then some Node.dir else lookup fs p

/-- Something exists at the absolute path `p`. -/
def has (fs : FS) (p : Str) : Bool := (node fs p).isSome

/-- All entries for `p` removed. -/
def erase (fs : FS) (p : Str) : FS := fs.filter (fun e => e.1 ≠ p)

/-- The path `p` lies strictly below the directory path `d`. -/
def under (d p : Str) : Bool :=
  p ≠ d && Strings.hasPrefix p (if d = root then root else d ++ ['/'])

/-- The path reached from the directory `cur` by one element of a path as
written: an empty element or `.` stays, `..` goes to the directory above,
a name goes to the entry of that name in `cur`. -/
def step (cur e : Str) : Str :=
  if e = [] ∨ e = ['.'] then cur
  else if e = ['.', '.'] then Filepath.dir cur
  else if cur = root then cur ++ e
  else cur ++ '/' :: e

/-- The path the system reaches from the directory `cur` by the elements of
a path as written; each element is looked up in a directory that exists,
and `.` and `..` lead to a directory that exists: `none` when what has been
reached is missing or not a directory. -/
def walk (fs : FS) : Str → List Str → Option Str
  | cur, [] => some cur
  | cur, e :: es =>
    if node fs cur ≠ some Node.dir then none
    else if (e = ['.'] ∨ e = ['.', '.']) ∧ node fs (step cur e) ≠ some Node.dir then none
    else walk fs (step cur e) es

/-- The directories of a path as written created where missing, from the
directory `cur` on, as `os.MkdirAll` does; the filesystem afterwards and
whether it succeeded.  It fails where a file is in the way, keeping what it
has created so far. -/
def mkdirWalk (fs : FS) : Str → List Str → FS × Bool
  | _, [] => (fs, true)
  | cur, e :: es =>
    if node fs cur ≠ some Node.dir then (fs, false)
    else if e = [] then mkdirWalk fs cur es
    else if e = ['.'] ∨ e = ['.', '.'] then
      if node fs (step cur e) ≠ some Node.dir then (fs, false)
      else mkdirWalk fs (step cur e) es
    else match node fs (step cur e) with
      | some Node.dir => mkdirWalk fs (step cur e) es
      | some Node.file => (fs, false)
      | none => mkdirWalk (fs ++ [(step cur e, Node.dir)]) (step cur e) es

/-- The path an entry has once the directory `old` has become `new`. -/
def rebase (old new q : Str) : Str :=
  if q = old then new
  else if under old q then new ++ q.drop old.length
  else q

/-- Effect of `os.Rename` on the entries the two paths lead to; `none` when
it fails.  The root cannot be renamed, an existing directory is never
replaced, a directory cannot be moved below itself nor onto a path above
itself, and renaming a file onto itself succeeds and changes nothing.  A
directory takes everything below it along.  (That the directory holding the
new path exists is settled when the path is followed.) -/
def rename (fs : FS) (old new : Str) : Option FS :=
  if old = root then none
  else if node fs new = some Node.dir then none
  else match node fs old with
    | none => none
    | some Node.file =>
      if old = new then some fs
      else some (erase (erase fs old) new ++ [(new, Node.file)])
    | some Node.dir =>
      if node fs new = some Node.file then none
      else if under old new then none
      else if under new old then none
      else some (fs.map (fun e => (rebase old new e.1, e.2)))

/-- Effect of `os.Remove` on the entry a path leads to; `none` when it
fails.  A directory is removed only when nothing lies below it. -/
def remove (fs : FS) (p : Str) : Option FS :=
  if p = root then none
  else match node fs p with
    | none => none
    | some Node.file => some (erase fs p)
    | some Node.dir => if fs.any (fun e => under p e.1) then none else some (erase fs p)

end FS

/-- The entry a path as written leads to: followed from the root when the
path is absolute and from the working directory otherwise.  The entry itself
need not exist; the empty path leads nowhere. -/
def resolvePath (getwd : Option Str) (fs : FS) (path : Str) : Option Str :=
  if path = [] then none
  else if Filepath.isAbs path then FS.walk fs FS.root (Filepath.splitSlash path)
  else match getwd with
    | some wd => FS.walk fs (Filepath.clean wd) (Filepath.splitSlash path)
    | none => none

/-- The last element of a path as written that is not empty. -/
def lastElement : List Str → Option Str
  | [] => none
  | e :: es =>
    match lastElement es with
    | some x => some x
    | none => if e = [] then none else some e

/-- The last element of a path as written is `.` or `..`; the system
refuses to remove or rename such a path. -/
def endsInDots (path : Str) : Bool :=
  match lastElement (Filepath.splitSlash path) with
  | some e => e = ['.'] ∨ e = ['.', '.']
  | none => false

/-- Model of `os.Stat(path)` succeeding. -/
def osStatOk (getwd : Option Str) (fs : FS) (path : Str) : Bool :=
  match resolvePath getwd fs path with
  | none => false
  | some p => FS.has fs p

/-- Model of `os.MkdirAll(path, 0755)`: the filesystem afterwards and
whether it succeeded. -/
def osMkdirAll (getwd : Option Str) (fs : FS) (path : Str) : FS × Bool :=
  if path = [] then (fs, false)
  else if Filepath.isAbs path then FS.mkdirWalk fs FS.root (Filepath.splitSlash path)
  else match getwd with
    | some wd => FS.mkdirWalk fs (Filepath.clean wd) (Filepath.splitSlash path)
    | none => (fs, false)

/-- Model of `os.Rename(oldpath, newpath)`.  Where the new path leads to an
existing directory, `os.Rename` fails unless the old path, written
differently, leads to that same directory; the system call then succeeds and
changes nothing. -/
def osRename (getwd : Option Str) (fs : FS) (oldpath newpath : Str) : Option FS :=
  if endsInDots oldpath ∨ endsInDots newpath then none
  else match resolvePath getwd fs oldpath, resolvePath getwd fs newpath with
    | some o, some n =>
      if FS.node fs n = some Node.dir ∧ o = n ∧ oldpath ≠ newpath ∧ o ≠ FS.root then some fs
      else FS.rename fs o n
    | _, _ => none

/-- Model of `os.Remove(path)`. -/
def osRemove (getwd : Option Str) (fs : FS) (path : Str) : Option FS :=
  if endsInDots path then none
  else match resolvePath getwd fs path with
    | none => none
    | some p => FS.remove fs p

/-! ## Command execution (`command.go`) -/

/-- The command handed to the system: `exec.Command(path, args...)` with its
working directory (empty when unset). -/
structure Cmd where
  Path : Str
  Args : List Str
  Dir : Str
  deriving DecidableEq

/-- The ways `executeCmdAndWait` fails. -/
inductive CmdFailure where
  | stdoutPipe
  | stderrPipe
  | start
  | wait
  deriving DecidableEq

/-- What the process finds around it: the working directory as `os.Getwd`
reports it (an absolute path, or `none` when it fails), its own program path
`os.Args[0]`, the search of `exec.LookPath`, and what running a command does
to the filesystem and how the command ends. -/
structure Env where
  getwd : Option Str
  getwd_abs : ∀ wd, getwd = some wd → Filepath.isAbs wd = true
  arg0 : Str
  lookPath : Str → Option Str
  run : Cmd → FS → FS × Option CmdFailure

/-- The filesystem and the commands run so far, oldest first. -/
structure World where
  fs : FS
  executed : List Cmd

/-- The errors of the worker. -/
inductive Err where
  | unknownEventType (eventType : EventType)
  | executingCommand (filePath : Str) (cause : CmdFailure)
  | invalidPostProcess (action : Int)
  | absDestination (destPath : Str)
  | creatingCompletionDir (processedPath : Str)
  | movingFile
  | deletingFile
  deriving DecidableEq

/-- The placeholder token of a command template. -/
def placeholder : Str := "\x7bfilepath\x7d".toList

/-- Embedding of `resolveExecutablePath`; `none` is its error. -/
def resolveExecutablePath (env : Env) (fs : FS) (executableName : Str) : Option Str :=
  match Filepath.abs env.getwd (Filepath.dir env.arg0) with
  | none => none
  | some filewatcherDir =>
    let fullExecutablePath := Filepath.join filewatcherDir executableName
    if osStatOk env.getwd fs fullExecutablePath then some fullExecutablePath
    else match env.lookPath executableName with
      | some path => some path
      | none => none

/-- The loop of `prepareCommandArgs` over the tokens, `i` the index of the
next token and `args` the arguments collected so far. -/
def argsLoop (filePath : Str) : Nat → List Str → List Str → List Str
  | _, [], args => args
  | i, arg :: rest, args =>
    if i = 0 then argsLoop filePath (i + 1) rest args
    else if arg = placeholder then argsLoop filePath (i + 1) rest (args ++ [filePath])
    else argsLoop filePath (i + 1) rest (args ++ [arg])

/-- Embedding of `prepareCommandArgs`: the executable and the arguments. -/
def prepareCommandArgs (env : Env) (fs : FS) (command : List Str) (filePath : Str) :
    Str × List Str :=
  match command with
  | [] => ([], [])
  | first :: _ =>
    let executablePath :=
      if Filepath.isAbs first then first
      else match resolveExecutablePath env fs first with
        | some absPath => absPath
        | none => first
    (executablePath, argsLoop filePath 0 command [])

/-- Embedding of `executeCmdAndWait`: the command is run and recorded. -/
def executeCmdAndWait (env : Env) (cmd : Cmd) (w : World) : World × Option CmdFailure :=
  let r := env.run cmd w.fs
  ({ fs := r.1, executed := w.executed ++ [cmd] }, r.2)

/-- Embedding of `executeCommand`. -/
def executeCommand (env : Env) (command : List Str) (filePath : Str) (w : World) :
    World × Option CmdFailure :=
  let pa := prepareCommandArgs env w.fs command filePath
  if pa.1 = [] then (w, none)
  else
    let cmd : Cmd :=
      { Path := pa.1, Args := pa.2, Dir := if filePath ≠ [] then Filepath.dir filePath else [] }
    executeCmdAndWait env cmd w

/-! ## Worker (`worker.go`) -/

/-- Embedding of `moveFileToCompletionDir`. -/
def moveFileToCompletionDir (env : Env) (filePath : Str) (config : Config) (w : World) :
    World × Option Err :=
  let destPath := Filepath.join config.ProcessedPath (Filepath.base filePath)
  match Filepath.abs env.getwd destPath with
  | none => (w, some (Err.absDestination destPath))
  | some absDestPath =>
    match osMkdirAll env.getwd w.fs config.ProcessedPath with
    | (fs1, false) => ({ w with fs := fs1 }, some (Err.creatingCompletionDir config.ProcessedPath))
    | (fs1, true) =>
      match osRename env.getwd fs1 filePath absDestPath with
      | none => ({ w with fs := fs1 }, some Err.movingFile)
      | some fs2 => ({ w with fs := fs2 }, none)

/-- Embedding of `deleteFile`. -/
def deleteFile (env : Env) (filePath : Str) (w : World) : World × Option Err :=
  match osRemove env.getwd w.fs filePath with
  | none => (w, some Err.deletingFile)
  | some fs1 => ({ w with fs := fs1 }, none)

/-- Embedding of `handlePostProcessing`. -/
def handlePostProcessing (env : Env) (filePath : Str) (config : Config) (w : World) :
    World × Option Err :=
  if config.PostProcessAction = PostProcessActionDoNothing then (w, none)
  else if config.PostProcessAction = PostProcessActionMove then
    moveFileToCompletionDir env filePath config w
  else if config.PostProcessAction = PostProcessActionDelete then
    deleteFile env filePath w
  else (w, some (Err.invalidPostProcess config.PostProcessAction))

/-- The command list `processFile` selects for an event type; `none` for an
unknown one. -/
def selectCommand (config : Config) (eventType : EventType) : Option (List Str) :=
  if eventType = CreateEvent then some config.OnCreateRun.elems
  else if eventType = RenameEvent then some config.OnRenameRun.elems
  else if eventType = WriteEvent then some config.OnModifyRun.elems
  else if eventType = RemoveEvent then some config.OnRemoveRun.elems
  else none

/-- Embedding of `processFile`. -/
def processFile (env : Env) (filePath : Str) (config : Config) (eventType : EventType)
    (w : World) : World × Option Err :=
  match selectCommand config eventType with
  | none => (w, some (Err.unknownEventType eventType))
  | some cmd =>
    match executeCommand env cmd filePath w with
    | (w1, some err) => (w1, some (Err.executingCommand filePath err))
    | (w1, none) =>
      if eventType ≠ RemoveEvent then handlePostProcessing env filePath config w1
      else (w1, none)

/-! ## Loading the configuration (`config.go`) -/

/-- What `os.ReadFile` reports for the configuration file. -/
inductive ReadResult where
  | notExist
  | failed
  | data (bytes : Str)

/-- The configuration file as `loadConfig` meets it: the result of reading
it, the decoder `yaml.Unmarshal` applied to the bytes on top of the defaults
(`none` when it reports an error), and whether marshalling and writing the
default file succeed. -/
structure ConfigFile where
  read : ReadResult
  unmarshal : Str → Config → Option Config
  marshalOk : Bool
  writeOk : Bool

/-- The errors of `loadConfig`. -/
inductive LoadErr where
  | marshalling
  | creatingDefault
  | reading
  | unmarshalling
  | invalidPostProcess (action : Int)
  deriving DecidableEq

/-- The validation step of `loadConfig` on the decoded configuration. -/
def validateConfig (config : Config) : Except LoadErr Config :=
  if config.PostProcessAction ≠ PostProcessActionDoNothing ∧
      config.PostProcessAction ≠ PostProcessActionMove ∧
      config.PostProcessAction ≠ PostProcessActionDelete then
    Except.error (LoadErr.invalidPostProcess config.PostProcessAction)
  else Except.ok config

/-- Embedding of `loadConfig`. -/
def loadConfig (src : ConfigFile) : Except LoadErr Config :=
  match src.read with
  | ReadResult.notExist =>
    if ¬ src.marshalOk then Except.error LoadErr.marshalling
    else if ¬ src.writeOk then Except.error LoadErr.creatingDefault
    else Except.ok defaultConfig
  | ReadResult.failed => Except.error LoadErr.reading
  | ReadResult.data bytes =>
    match src.unmarshal bytes defaultConfig with
    | none => Except.error LoadErr.unmarshalling
    | some config => validateConfig config

/-! ## Periodic reload of the configuration (`main.go`) -/

/-- The value of a configuration field, as the reload loop compares it. -/
inductive FieldVal where
  | str (s : Str)
  | int (i : Int)
  | bool (b : Bool)
  | strs (l : Slice)
  deriving DecidableEq

/-- The fields of a configuration in declaration order, by name. -/
def configFields (c : Config) : List (Str × FieldVal) :=
  [ ("TargetPath".toList, FieldVal.str c.TargetPath),
    ("ProcessedPath".toList, FieldVal.str c.ProcessedPath),
    ("MaxWorkers".toList, FieldVal.int c.MaxWorkers),
    ("PostProcessAction".toList, FieldVal.int c.PostProcessAction),
    ("FileTypes".toList, FieldVal.strs c.FileTypes),
    ("ProcessOnStart".toList, FieldVal.bool c.ProcessOnStart),
    ("LogPath".toList, FieldVal.str c.LogPath),
    ("EnableLog".toList, FieldVal.bool c.EnableLog),
    ("InitRun".toList, FieldVal.strs c.InitRun),
    ("ExitRun".toList, FieldVal.strs c.ExitRun),
    ("OnCreateRun".toList, FieldVal.strs c.OnCreateRun),
    ("OnModifyRun".toList, FieldVal.strs c.OnModifyRun),
    ("OnRenameRun".toList, FieldVal.strs c.OnRenameRun),
    ("OnRemoveRun".toList, FieldVal.strs c.OnRemoveRun),
    ("Debounce".toList, FieldVal.int c.Debounce),
    ("ExcludePaths".toList, FieldVal.strs c.ExcludePaths),
    ("ReloadConfig".toList, FieldVal.int c.ReloadConfig),
    ("CheckInterval".toList, FieldVal.int c.CheckInterval) ]

/-- A line "Config change detected - field: old -> new". -/
structure ConfigChange where
  field : Str
  oldValue : Option FieldVal
  newValue : FieldVal
  deriving DecidableEq

/-- The map `oldConfigValues`: field name to the value last seen. -/
abbrev Snapshot := Str → Option FieldVal

/-- The snapshot `periodicConfigReload` takes before its loop. -/
def snapshotOf (c : Config) : Snapshot :=
  (configFields c).foldl (fun m e => fun k => if k = e.1 then some e.2 else m k) (fun _ => none)

/-- The state of the reload loop: the live configuration, the snapshot the
diff is taken against, the interval of the current ticker (nanoseconds),
the number of tickers created so far, and the change lines logged. -/
structure ReloadState where
  config : Config
  oldConfigValues : Snapshot
  tickerInterval : Int
  tickersCreated : Nat
  changes : List ConfigChange

/-- How the reload loop ends the process: `logger.Fatalf` on a failed
reload, or the panic of `time.NewTicker` on a non-positive interval. -/
inductive Stop where
  | fatal
  | panic
  deriving DecidableEq

/-- The comparison loop of a reload over the fields of the new
configuration: a differing field is logged and its snapshot value replaced. -/
def diffFields : List (Str × FieldVal) → Snapshot × List ConfigChange →
    Snapshot × List ConfigChange
  | [], acc => acc
  | (fieldName, newValue) :: rest, (snap, log) =>
    if snap fieldName ≠ some newValue then
      diffFields rest
        (fun k => if k = fieldName then some newValue else snap k,
         log ++ [{ field := fieldName, oldValue := snap fieldName, newValue := newValue }])
    else diffFields rest (snap, log)

/-- One tick of `periodicConfigReload`, `loaded` being what `loadConfig`
returned.  The statements are in the order of the source: the fields are
compared, the live configuration is overwritten with the new one, and then
the live value of `ReloadConfig` is compared with the new one to decide
whether the ticker is replaced. -/
def reloadStep (st : ReloadState) (loaded : Except LoadErr Config) : Except Stop ReloadState :=
  match loaded with
  | Except.error _ => Except.error Stop.fatal
  | Except.ok newConfig =>
    let d := diffFields (configFields newConfig) (st.oldConfigValues, st.changes)
    let config := newConfig
    if config.ReloadConfig ≠ newConfig.ReloadConfig then
      if milliseconds newConfig.ReloadConfig ≤ 0 then Except.error Stop.panic
      else Except.ok
        { config := config, oldConfigValues := d.1,
          tickerInterval := milliseconds newConfig.ReloadConfig,
          tickersCreated := st.tickersCreated + 1, changes := d.2 }
    else Except.ok
      { config := config, oldConfigValues := d.1, tickerInterval := st.tickerInterval,
        tickersCreated := st.tickersCreated, changes := d.2 }

/-- The ticks of the reload loop, one per result of `loadConfig`. -/
def reloadLoop : ReloadState → List (Except LoadErr Config) → Except Stop ReloadState
  | st, [] => Except.ok st
  | st, loaded :: rest =>
    match reloadStep st loaded with
    | Except.error e => Except.error e
    | Except.ok st1 => reloadLoop st1 rest

/-- Embedding of `periodicConfigReload` over the successive results of
`loadConfig`: the ticker and the snapshot are set up from the configuration
it is started with, then the ticks are taken. -/
def periodicConfigReload (config : Config) (loads : List (Except LoadErr Config)) :
    Except Stop ReloadState :=
  if milliseconds config.ReloadConfig ≤ 0 then Except.error Stop.panic
  else reloadLoop
    { config := config, oldConfigValues := snapshotOf config,
      tickerInterval := milliseconds config.ReloadConfig, tickersCreated := 1, changes := [] }
    loads

/-! ## Task descriptors and the worker loop (`worker.go`) -/

/-- The marker between the path and the event kind of a task. -/
def eventMarker : Str := "?event=".toList

/-- Embedding of `parseEventType`. -/
def parseEventType (filePathWithEvent : Str) : Str × EventType :=
  match Strings.split filePathWithEvent eventMarker with
  | [filePath, eventType] => (filePath, eventType)
  | _ => (filePathWithEvent, [])

/-- The body of the loop of `worker` for one task: the outcome of
`processFile` on the parsed task. -/
def workerStep (env : Env) (config : Config) (w : World) (filePathWithEvent : Str) :
    World × Option Err :=
  processFile env (parseEventType filePathWithEvent).1 config
    (parseEventType filePathWithEvent).2 w

/-- Embedding of the loop of `worker` over the tasks read from the queue:
the world afterwards and the outcome of each task. -/
def worker (env : Env) (config : Config) : World → List Str → World × List (Option Err)
  | w, [] => (w, [])
  | w, task :: rest =>
    let r := workerStep env config w task
    let rs := worker env config r.1 rest
    (rs.1, r.2 :: rs.2)

/-- Embedding of `setupWorkerPool`, `numCPU` being `runtime.NumCPU()`: the
configuration as the function leaves it and the number of workers started. -/
def setupWorkerPool (numCPU : Int) (config : Config) : Config × Nat :=
  let config := if config.MaxWorkers ≤ 0 then { config with MaxWorkers := numCPU } else config
  (config, config.MaxWorkers.toNat)

/-! ## The bootstrap scan (`worker.go`) -/

/-- What the function given to `filepath.Walk` returns. -/
inductive WalkResult where
  | ok
  | skipDir
  | error
  deriving DecidableEq

/-- One call of the walk function: the path `filepath.Walk` passes, what it
found there (`StatResult.error` when it passes an error), the depth of the
path below the root of the walk, and the clock reading during the call. -/
structure WalkEntry where
  path : Str
  info : StatResult
  depth : Nat
  now : Int

/-- The function `processExistingFiles` gives to `filepath.Walk`. -/
def walkFn (u : CaseTables) (getwd : Option Str) (config : Config) (st : State)
    (e : WalkEntry) :
    State × WalkResult :=
  if e.info = StatResult.error then (st, WalkResult.error)
  else if isExcludedPath u getwd e.path config then
    if e.info = StatResult.dir then (st, WalkResult.skipDir) else (st, WalkResult.ok)
  else if e.info ≠ StatResult.dir ∧ isAllowedFileType u e.path config.FileTypes.elems = true then
    match Filepath.abs getwd e.path with
    | none => (st, WalkResult.error)
    | some absPath =>
      (debounceAndSend e.now absPath "?event=create".toList config st, WalkResult.ok)
  else (st, WalkResult.ok)

/-- The traversal of `filepath.Walk` over the entries in the order it visits
them (a directory before what it contains): after `skipDir` for a directory
the deeper entries that follow it are passed over, and an error ends the
walk.  `skip` is the depth of the directory being passed over. -/
def walkLoop (u : CaseTables) (getwd : Option Str) (config : Config) :
    Option Nat → State → List WalkEntry → State
  | _, st, [] => st
  | skip, st, e :: rest =>
    if (match skip with
        | some d => decide (d < e.depth)
        | none => false) then walkLoop u getwd config skip st rest
    else
      match walkFn u getwd config st e with
      | (st1, WalkResult.ok) => walkLoop u getwd config none st1 rest
      | (st1, WalkResult.skipDir) => walkLoop u getwd config (some e.depth) st1 rest
      | (st1, WalkResult.error) => st1

/-- Embedding of `processExistingFiles` over the entries `filepath.Walk`
finds under `target_path`. -/
def processExistingFiles (u : CaseTables) (getwd : Option Str) (config : Config) (st : State)
    (entries : List WalkEntry) : State :=
  walkLoop u getwd config none st entries

/-! ## The reload loop from the start of the process (`main.go`) -/

/-- The steps of `main` that bear on the reload loop: the configuration
loaded at startup goes through `setupWorkerPool`, and the loop is started on
it when its reload interval is positive (`none` when it is not started). -/
def mainReload (numCPU : Int) (loadedAtStartup : Config)
    (loads : List (Except LoadErr Config)) : Option (Except Stop ReloadState) :=
  let config := (setupWorkerPool numCPU loadedAtStartup).1
  if config.ReloadConfig > 0 then some (periodicConfigReload config loads) else none

/-- The change lines the specification expects when `next` is loaded after
`prev`: one line for each field whose value differs, in the order of the
fields, with the old and the new value. -/
def fieldChanges (prev next : Config) : List ConfigChange :=
  (List.zipWith (fun a b => (a.1, a.2, b.2)) (configFields prev) (configFields next)).filterMap
    (fun t => if t.2.1 ≠ t.2.2 then
      some { field := t.1, oldValue := some t.2.1, newValue := t.2.2 } else none)

/-- The change lines the specification expects over successive loads: each
configuration is compared with the one loaded before it, starting from
`prev`. -/
def changesAlong : Config → List Config → List ConfigChange
  | _, [] => []
  | prev, next :: rest => fieldChanges prev next ++ changesAlong next rest

/-! ## Debouncing of a sequence of events, as the specification words it -/

/-- The suffix that marks the event kind in a task. -/
def eventSuffix : Notify → Str
  | Notify.Create => "?event=create".toList
  | Notify.Rename => "?event=rename".toList
  | Notify.Write => "?event=write".toList
  | Notify.Remove => "?event=remove".toList

/-- The task an event stands for on the queue. -/
def taskOf (ev : Occurrence) : Str := ev.path ++ eventSuffix ev.kind

/-- A qualifying event on the path `P`: a Create, Rename or Write event on a
regular file that is not excluded and of an allowed type, with a command
configured for its kind. -/
def qualifies (u : CaseTables) (getwd : Option Str) (config : Config) (P : Str)
    (ev : Occurrence) : Bool :=
  ev.path = P && !isExcludedPath u getwd P config && ev.fi = StatResult.regular &&
  isAllowedFileType u P config.FileTypes.elems &&
  (match ev.kind with
   | Notify.Create => config.OnCreateRun.elems ≠ []
   | Notify.Rename => config.OnRenameRun.elems ≠ []
   | Notify.Write => config.OnModifyRun.elems ≠ []
   | Notify.Remove => false)

/-- The events of a sequence that the specification has enqueued: the first
one, and every later one that occurs at least `window` after the most
recently enqueued one.  `last` is the instant of the most recently enqueued
event, `none` before the first. -/
def debounced (window : Int) : Option Int → List Occurrence → List Occurrence
  | _, [] => []
  | none, ev :: rest => ev :: debounced window (some ev.now) rest
  | some t, ev :: rest =>
    if ev.now - t ≥ window then ev :: debounced window (some ev.now) rest
    else debounced window (some t) rest

/-! ## Concrete inputs

Configurations and states at which the code is evaluated below. -/

/-- The configuration of the exclusion example: paths containing `tmp` are
excluded and a command is configured for modifications. -/
def excludeTmpConfig : Config :=
  { defaultConfig with
    ExcludePaths := Slice.of ["tmp".toList],
    OnCreateRun := Slice.of ["cat".toList, placeholder],
    OnRenameRun := Slice.of ["cat".toList, placeholder],
    OnModifyRun := Slice.of ["cat".toList, placeholder] }

/-- The state before any event: empty registry, nothing sent, no watch. -/
def emptyState : State :=
  { lastEventTimes := fun _ => none, taskQueue := [], watches := [] }

/-- A configuration whose only exclusion pattern starts with a blank. -/
def blankPatternConfig : Config :=
  { defaultConfig with ExcludePaths := Slice.of [" tmp".toList] }

/-- A configuration with a command for every event kind and a debounce
window of 100 ms. -/
def catConfig : Config :=
  { defaultConfig with
    OnCreateRun := Slice.of ["cat".toList, placeholder],
    OnRenameRun := Slice.of ["cat".toList, placeholder],
    OnModifyRun := Slice.of ["cat".toList, placeholder] }

/-- Three events on one file: a Create, a Write 50 ms later and a Rename
after another 100 ms. -/
def burst : List Occurrence :=
  [ { path := "/w/a.txt".toList, kind := Notify.Create, fi := StatResult.regular, now := 0 },
    { path := "/w/a.txt".toList, kind := Notify.Write, fi := StatResult.regular,
      now := 50000000 },
    { path := "/w/a.txt".toList, kind := Notify.Rename, fi := StatResult.regular,
      now := 150000000 } ]

/-- An environment with working directory `/`, no program on the search
path, and commands that succeed without touching the filesystem. -/
def quietEnv : Env where
  getwd := some "/".toList
  getwd_abs := by
    intro wd h
    cases h
    rfl
  arg0 := "/opt/watch/watchthatdir".toList
  lookPath := fun _ => none
  run := fun _ fs => (fs, none)

/-- A configuration that moves processed files to `/w/done`. -/
def moveConfig : Config :=
  { catConfig with
    TargetPath := "/w".toList,
    ProcessedPath := "/w/done".toList,
    PostProcessAction := PostProcessActionMove }

/-- A filesystem with a file in the watched directory and a file that is
already in the directory of processed files. -/
def sampleFS : FS :=
  [ ("/w".toList, Node.dir), ("/w/in".toList, Node.dir), ("/w/in/b.txt".toList, Node.file),
    ("/w/done".toList, Node.dir), ("/w/done/a.txt".toList, Node.file) ]

/-- A configuration file that decodes to the defaults with `post_process: 2`. -/
def badPostProcessFile : ConfigFile where
  read := ReadResult.data "post_process: 2".toList
  unmarshal := fun _ c => some { c with PostProcessAction := 2 }
  marshalOk := true
  writeOk := true

/-- A configuration that reloads every 50 ms. -/
def reload50 : Config := { defaultConfig with ReloadConfig := 50 }

/-- The same configuration with the reload interval changed to 100 ms. -/
def reload100 : Config := { defaultConfig with ReloadConfig := 100 }

/-- The defaults with the invalid setting `post_process: 2`. -/
def badPostProcessConfig : Config := { defaultConfig with PostProcessAction := 2 }

/-- A configuration that deletes processed files. -/
def deleteConfig : Config :=
  { catConfig with TargetPath := "/w".toList, PostProcessAction := PostProcessActionDelete }

/-- A configuration file content with `max_workers: 0` and a reload every
50 ms. -/
def zeroWorkersConfig : Config := { defaultConfig with MaxWorkers := 0, ReloadConfig := 50 }

/-- The same with `max_workers: 4`. -/
def fourWorkersConfig : Config := { defaultConfig with MaxWorkers := 4, ReloadConfig := 50 }

/-- The watched directory `/w` holding the regular file `/w/a.txt`, as the
walk finds them. -/
def oneFileWalk : List WalkEntry :=
  [ { path := "/w".toList, info := StatResult.dir, depth := 0, now := 0 },
    { path := "/w/a.txt".toList, info := StatResult.regular, depth := 1, now := 0 } ]

/-- The watched directory `/w` holding the named pipe `/w/pipe`. -/
def pipeWalk : List WalkEntry :=
  [ { path := "/w".toList, info := StatResult.dir, depth := 0, now := 0 },
    { path := "/w/pipe".toList, info := StatResult.other, depth := 1, now := 0 } ]

/-- The defaults watching `/w`: no command is configured for any event. -/
def noCommandConfig : Config := { defaultConfig with TargetPath := "/w".toList }

/-- A configuration watching `/w` with no command configured that deletes
processed files. -/
def noCommandDeleteConfig : Config :=
  { defaultConfig with TargetPath := "/w".toList, PostProcessAction := PostProcessActionDelete }

/-- A configuration watching `/w` with no command configured that moves
processed files to `/w/done`. -/
def noCommandMoveConfig : Config :=
  { defaultConfig with
    TargetPath := "/w".toList,
    ProcessedPath := "/w/done".toList,
    PostProcessAction := PostProcessActionMove }

/-- A configuration with commands for every event kind whose debounce
window, 9223372036855 ms, is more than a `time.Duration` can hold. -/
def hugeWindowConfig : Config := { catConfig with Debounce := 9223372036855 }

/-- A registry in which `/w/a.txt` was last accepted at instant 0. -/
def acceptedAtZero : Registry :=
  fun p => if p = "/w/a.txt".toList then some 0 else none

/-- Two events on one file, a Create and a Write one millisecond later. -/
def twoEvents : List Occurrence :=
  [ { path := "/w/a.txt".toList, kind := Notify.Create, fi := StatResult.regular, now := 0 },
    { path := "/w/a.txt".toList, kind := Notify.Write, fi := StatResult.regular,
      now := 1000000 } ]

/-! # Properties -/

/-! ## The path and string functions on sample inputs -/



/-! ## Strings -/

theorem Strings.hasPrefix_iff (s p : Str) :
    Strings.hasPrefix s p = true ↔ ∃ post, s = p ++ post := by
  induction p generalizing s with
  | nil => simp [Strings.hasPrefix]
  | cons d p ih =>
    cases s with
    | nil => simp [Strings.hasPrefix]
    | cons c s =>
      simp only [Strings.hasPrefix, Bool.and_eq_true, beq_iff_eq, ih, List.cons_append,
        List.cons.injEq]
      constructor
      · rintro ⟨rfl, post, rfl⟩
        exact ⟨post, rfl, rfl⟩
      · rintro ⟨post, rfl, rfl⟩
        exact ⟨rfl, post, rfl⟩

theorem Strings.contains_iff (s sub : Str) :
    Strings.contains s sub = true ↔ ∃ pre post, s = pre ++ sub ++ post := by
  induction s with
  | nil =>
    simp only [Strings.contains, List.isEmpty_iff]
    constructor
    · rintro rfl
      exact ⟨[], [], rfl⟩
    · rintro ⟨pre, post, h⟩
      have h1 := congrArg List.length h
      simp at h1
      exact List.length_eq_zero.mp (by omega)
  | cons c s ih =>
    simp only [Strings.contains, Bool.or_eq_true, Strings.hasPrefix_iff, ih]
    constructor
    · rintro (⟨post, h⟩ | ⟨pre, post, h⟩)
      · exact ⟨[], post, by simpa using h⟩
      · exact ⟨c :: pre, post, by simp [h]⟩
    · rintro ⟨pre, post, h⟩
      cases pre with
      | nil => exact Or.inl ⟨post, by simpa using h⟩
      | cons a pre =>
        simp only [List.cons_append, List.cons.injEq] at h
        exact Or.inr ⟨pre, post, h.2⟩

/-- `strings.EqualFold` holds exactly when the strings are, character by
character, equal under simple case folding. -/
theorem Strings.equalFold_iff (u : CaseTables) (s t : Str) :
    Strings.equalFold u s t = true ↔ List.Forall₂ (fun c d => u.foldEq c d = true) s t := by
  induction s generalizing t with
  | nil =>
    cases t with
    | nil => simp [Strings.equalFold]
    | cons d t => simp [Strings.equalFold]
  | cons c s ih =>
    cases t with
    | nil => simp [Strings.equalFold]
    | cons d t => simp [Strings.equalFold, ih]

/-- On ASCII strings `strings.ToLower` is the mapping of the ASCII letters,
whatever the tables are beyond ASCII. -/
theorem Strings.toLower_ascii (u : CaseTables) (s : Str) (h : ∀ c ∈ s, c.toNat < 128) :
    Strings.toLower u s = Strings.toLower asciiCase s := by
  induction s with
  | nil => rfl
  | cons c s ih =>
    simp only [Strings.toLower, List.map_cons, List.cons.injEq]
    exact ⟨u.toLower_ascii c (h c (List.mem_cons_self _ _)),
      ih (fun d hd => h d (List.mem_cons_of_mem _ hd))⟩

/-- On ASCII strings `strings.EqualFold` is equality of the ASCII lower-case
forms, whatever the tables are beyond ASCII. -/
theorem Strings.equalFold_ascii (u : CaseTables) (s t : Str)
    (hs : ∀ c ∈ s, c.toNat < 128) (ht : ∀ c ∈ t, c.toNat < 128) :
    Strings.equalFold u s t = Strings.equalFold asciiCase s t := by
  induction s generalizing t with
  | nil =>
    cases t <;> rfl
  | cons c s ih =>
    cases t with
    | nil => rfl
    | cons d t =>
      simp only [Strings.equalFold]
      rw [u.foldEq_ascii c d (hs c (List.mem_cons_self _ _)) (ht d (List.mem_cons_self _ _)),
        ih t (fun x hx => hs x (List.mem_cons_of_mem _ hx))
          (fun x hx => ht x (List.mem_cons_of_mem _ hx))]
      rfl

/-! ## Exclusion and extension filters -/

theorem excludedBy_iff (u : CaseTables) (absPath : Str) (patterns : List Str) :
    excludedBy u absPath patterns = true ↔
      ∃ p ∈ patterns,
        Strings.equalFold u absPath (Strings.trimSpace (Strings.removeStars p)) = true ∨
        Strings.contains (Strings.toLower u absPath)
          (Strings.toLower u (Strings.trimSpace (Strings.removeStars p))) = true := by
  induction patterns with
  | nil => simp [excludedBy]
  | cons p rest ih =>
    simp only [excludedBy, List.mem_cons, exists_eq_or_imp]
    by_cases h1 : Strings.equalFold u absPath (Strings.trimSpace (Strings.removeStars p)) = true
    · simp [h1]
    · by_cases h2 : Strings.contains (Strings.toLower u absPath)
          (Strings.toLower u (Strings.trimSpace (Strings.removeStars p))) = true
      · simp [h2]
      · simp [h1, h2, ih]

theorem isExcludedPath_of_abs (u : CaseTables) (getwd : Option Str) (path absPath : Str) (config : Config)
    (h : Filepath.abs getwd path = some absPath) :
    isExcludedPath u getwd path config = excludedBy u absPath config.ExcludePaths.elems := by
  simp [isExcludedPath, h]

theorem Strings.trimSpace_infix (s : Str) :
    ∃ l r, s = l ++ Strings.trimSpace s ++ r := by
  refine ⟨s.takeWhile Strings.isSpace,
    ((s.dropWhile Strings.isSpace).reverse.takeWhile Strings.isSpace).reverse, ?_⟩
  have h1 : s = s.takeWhile Strings.isSpace ++ s.dropWhile Strings.isSpace :=
    (List.takeWhile_append_dropWhile _ _).symm
  have h2 := List.takeWhile_append_dropWhile Strings.isSpace
    (s.dropWhile Strings.isSpace).reverse
  have h3 := congrArg List.reverse h2
  simp only [List.reverse_append, List.reverse_reverse] at h3
  calc s = s.takeWhile Strings.isSpace ++ s.dropWhile Strings.isSpace := h1
    _ = _ := by
      rw [List.append_assoc]
      congr 1
      exact h3.symm

/-- An event on an excluded path leaves the state of `handleCreateEvent`
untouched: nothing is sent on the queue. -/
theorem handleCreateEvent_excluded (u : CaseTables) (getwd : Option Str) (fi : StatResult) (now : Int)
    (eventPath : Str) (config : Config) (st : State)
    (h : isExcludedPath u getwd eventPath config = true) :
    handleCreateEvent u getwd fi now eventPath config st = st := by
  simp [handleCreateEvent, h]

/-- An event on an excluded path leaves the state of `handleRenameEvent`
untouched: nothing is sent on the queue. -/
theorem handleRenameEvent_excluded (u : CaseTables) (getwd : Option Str) (fi : StatResult) (now : Int)
    (eventPath : Str) (config : Config) (st : State)
    (h : isExcludedPath u getwd eventPath config = true) :
    handleRenameEvent u getwd fi now eventPath config st = st := by
  simp [handleRenameEvent, h]

/-- A path whose absolute form equals a pattern with the stars removed, or
contains it, up to case, is excluded: trimming the pattern only makes it
match more. -/
theorem isExcludedPath_of_star_stripped_match (u : CaseTables) (getwd : Option Str) (path absPath : Str)
    (config : Config) (p : Str) (habs : Filepath.abs getwd path = some absPath)
    (hp : p ∈ config.ExcludePaths.elems)
    (hm : Strings.toLower u absPath = Strings.toLower u (Strings.removeStars p) ∨
      ∃ pre post, Strings.toLower u absPath
        = pre ++ Strings.toLower u (Strings.removeStars p) ++ post) :
    isExcludedPath u getwd path config = true := by
  rw [isExcludedPath_of_abs u getwd path absPath config habs, excludedBy_iff]
  refine ⟨p, hp, Or.inr ?_⟩
  rw [Strings.contains_iff]
  obtain ⟨l, r, hlr⟩ := Strings.trimSpace_infix (Strings.removeStars p)
  have hlow : Strings.toLower u (Strings.removeStars p)
      = Strings.toLower u l ++ Strings.toLower u (Strings.trimSpace (Strings.removeStars p))
        ++ Strings.toLower u r := by
    conv_lhs => rw [hlr]
    simp [Strings.toLower]
  rcases hm with hm | ⟨pre, post, hm⟩
  · exact ⟨Strings.toLower u l, Strings.toLower u r, by rw [hm, hlow]⟩
  · exact ⟨pre ++ Strings.toLower u l, Strings.toLower u r ++ post, by
      rw [hm, hlow]; simp [List.append_assoc]⟩

/-- C1, at the input where the code departs from it.  The path
`/watch/tmp/a.txt` contains the exclusion pattern `tmp`; a Create or a Rename
event on it sends nothing, a Write event sends the task
`/watch/tmp/a.txt?event=write`: `handleWriteEvent` never consults
`isExcludedPath`.  This holds whatever the case tables are. -/
theorem handleWriteEvent_sends_excluded_path (u : CaseTables) :
    isExcludedPath u (some "/".toList) "/watch/tmp/a.txt".toList excludeTmpConfig = true ∧
    (handleCreateEvent u (some "/".toList) StatResult.regular 0 "/watch/tmp/a.txt".toList
      excludeTmpConfig emptyState).taskQueue = [] ∧
    (handleRenameEvent u (some "/".toList) StatResult.regular 0 "/watch/tmp/a.txt".toList
      excludeTmpConfig emptyState).taskQueue = [] ∧
    (handleWriteEvent u 0 "/watch/tmp/a.txt".toList excludeTmpConfig emptyState).taskQueue
      = ["/watch/tmp/a.txt?event=write".toList] := by
  have hex : isExcludedPath u (some "/".toList) "/watch/tmp/a.txt".toList excludeTmpConfig
      = true := by
    have habs : Filepath.abs (some "/".toList) "/watch/tmp/a.txt".toList
        = some "/watch/tmp/a.txt".toList := by decide
    rw [isExcludedPath_of_abs u _ _ _ _ habs, excludedBy_iff]
    refine ⟨"tmp".toList, by decide, Or.inr ?_⟩
    rw [Strings.toLower_ascii u _ (by decide), Strings.toLower_ascii u _ (by decide)]
    decide
  refine ⟨hex, ?_, ?_, rfl⟩
  · rw [handleCreateEvent_excluded u _ _ _ _ _ _ hex]
    rfl
  · rw [handleRenameEvent_excluded u _ _ _ _ _ _ hex]
    rfl

/-! ## The debounce test -/

theorem wrap64_of_fits (x : Int) (hlo : minDuration ≤ x) (hhi : x ≤ maxDuration) :
    wrap64 x = x := by
  unfold wrap64
  unfold minDuration at hlo
  unfold maxDuration at hhi
  omega

/-- A window of `D` milliseconds that a `time.Duration` can hold is the
product `D * Millisecond` itself. -/
theorem milliseconds_of_fits (D : Int) (hlo : -9223372036854 ≤ D) (hhi : D ≤ 9223372036854) :
    milliseconds D = D * Millisecond := by
  unfold milliseconds Millisecond
  apply wrap64_of_fits
  · unfold minDuration
    omega
  · unfold maxDuration
    omega

/-- For a window that a `time.Duration` can hold, the comparison the code
makes on saturated 64-bit durations is the comparison of the elapsed time
with the window. -/
theorem debounce_test_iff (now t D : Int) (hlo : -9223372036854 ≤ D)
    (hhi : D ≤ 9223372036854) :
    timeSub now t ≥ milliseconds D ↔ now - t ≥ D * Millisecond := by
  rw [milliseconds_of_fits D hlo hhi]
  unfold timeSub maxDuration minDuration Millisecond
  split
  · constructor <;> intro _ <;> omega
  · split
    · constructor <;> intro _ <;> omega
    · exact Iff.rfl

/-- C2, counterexample to the claim as stated.  With a debounce window of
9223372036855 ms the product with `time.Millisecond` wraps around to a
negative duration: an event on `/w/a.txt` one millisecond after the last
accepted one is accepted, although one millisecond is less than the window. -/
theorem shouldProcessEvent_accepts_within_huge_window :
    acceptedAtZero "/w/a.txt".toList = some 0 ∧
    ¬ (1000000 - 0 ≥ hugeWindowConfig.Debounce * Millisecond) ∧
    (shouldProcessEvent 1000000 "/w/a.txt".toList hugeWindowConfig acceptedAtZero).1
      = true := by
  decide

/-- C2, amended.  For a debounce window of `Debounce` milliseconds that a
`time.Duration` can hold (at most 9223372036854 ms in absolute value), the
debounce test accepts exactly when the registry has no entry for the path or
the time elapsed since the recorded instant is at least the window; for
every window, on accept the registry maps the path to `now` and every other
entry is as before, and on reject the registry is unchanged. -/
theorem shouldProcessEvent_spec (now : Int) (eventPath : Str) (config : Config)
    (lastEventTimes : Registry) :
    (-9223372036854 ≤ config.Debounce → config.Debounce ≤ 9223372036854 →
      ((shouldProcessEvent now eventPath config lastEventTimes).1 = true ↔
        (lastEventTimes eventPath = none ∨
          ∃ t, lastEventTimes eventPath = some t ∧
            now - t ≥ config.Debounce * Millisecond))) ∧
    ((shouldProcessEvent now eventPath config lastEventTimes).1 = true →
      (shouldProcessEvent now eventPath config lastEventTimes).2 eventPath = some now ∧
      ∀ q, q ≠ eventPath →
        (shouldProcessEvent now eventPath config lastEventTimes).2 q = lastEventTimes q) ∧
    ((shouldProcessEvent now eventPath config lastEventTimes).1 = false →
      (shouldProcessEvent now eventPath config lastEventTimes).2 = lastEventTimes) := by
  unfold shouldProcessEvent
  cases h : lastEventTimes eventPath with
  | none =>
    simp only [true_or, iff_true, if_true, true_and, forall_const]
    refine ⟨fun _ _ => trivial, fun q hq => by simp [hq], fun hf => by simp at hf⟩
  | some t =>
    by_cases hd : timeSub now t ≥ milliseconds config.Debounce
    · simp only [hd, if_true]
      refine ⟨fun hlo hhi => ?_, fun _ => ⟨by simp, fun q hq => by simp [hq]⟩,
        fun hf => by simp at hf⟩
      have := (debounce_test_iff now t config.Debounce hlo hhi).mp hd
      simpa using this
    · simp only [hd, if_false]
      refine ⟨fun hlo hhi => ?_, fun hf => by simp at hf, fun _ => trivial⟩
      have : ¬ now - t ≥ config.Debounce * Millisecond :=
        fun h => hd ((debounce_test_iff now t config.Debounce hlo hhi).mpr h)
      simpa using this

/-- Witness of C2: with a window of 100 ms and `/w/a.txt` accepted at
instant 0, the test at 50 ms accepts exactly when the registry has no entry
or 50 ms is at least the window; and the test at 50 ms rejects. -/
theorem shouldProcessEvent_spec_witness :
    -9223372036854 ≤ catConfig.Debounce ∧ catConfig.Debounce ≤ 9223372036854 ∧
    ((shouldProcessEvent 50000000 "/w/a.txt".toList catConfig acceptedAtZero).1 = true ↔
      (acceptedAtZero "/w/a.txt".toList = none ∨
        ∃ t, acceptedAtZero "/w/a.txt".toList = some t ∧
          50000000 - t ≥ catConfig.Debounce * Millisecond)) ∧
    (shouldProcessEvent 50000000 "/w/a.txt".toList catConfig acceptedAtZero).1 = false :=
  ⟨by decide, by decide,
    (shouldProcessEvent_spec 50000000 "/w/a.txt".toList catConfig acceptedAtZero).1
      (by decide) (by decide),
    by decide⟩

/-- C4, counterexample to the claim as stated.  With the single pattern
`" tmp"` the path `/a/tmp` (already absolute) is excluded, although it neither
equals nor contains the pattern with its stars removed: the code also trims
the white space around the pattern. -/
theorem isExcludedPath_star_stripped_only_fails :
    Filepath.abs (some "/".toList) "/a/tmp".toList = some "/a/tmp".toList ∧
    isExcludedPath asciiCase (some "/".toList) "/a/tmp".toList blankPatternConfig = true ∧
    ¬ ∃ p ∈ blankPatternConfig.ExcludePaths.elems,
        Strings.equalFold asciiCase "/a/tmp".toList (Strings.removeStars p) = true ∨
        Strings.contains (Strings.toLower asciiCase "/a/tmp".toList)
          (Strings.toLower asciiCase (Strings.removeStars p)) = true := by
  decide

/-- The input of the counterexample of C4 for every case table: the path
and the pattern are ASCII, where every table is the mapping of the ASCII
letters. -/
theorem isExcludedPath_blank_pattern (u : CaseTables) :
    isExcludedPath u (some "/".toList) "/a/tmp".toList blankPatternConfig = true ∧
    ¬ ∃ p ∈ blankPatternConfig.ExcludePaths.elems,
        Strings.equalFold u "/a/tmp".toList (Strings.removeStars p) = true ∨
        Strings.contains (Strings.toLower u "/a/tmp".toList)
          (Strings.toLower u (Strings.removeStars p)) = true := by
  constructor
  · have habs : Filepath.abs (some "/".toList) "/a/tmp".toList = some "/a/tmp".toList := by
      decide
    rw [isExcludedPath_of_abs u _ _ _ _ habs, excludedBy_iff]
    refine ⟨" tmp".toList, by decide, Or.inr ?_⟩
    rw [Strings.toLower_ascii u _ (by decide), Strings.toLower_ascii u _ (by decide)]
    decide
  · rintro ⟨p, hp, h⟩
    have hp2 : p = " tmp".toList := by
      have : blankPatternConfig.ExcludePaths.elems = [" tmp".toList] := rfl
      rw [this] at hp
      simpa using hp
    subst hp2
    rw [Strings.equalFold_ascii u _ _ (by decide) (by decide),
      Strings.toLower_ascii u _ (by decide), Strings.toLower_ascii u _ (by decide)] at h
    revert h
    decide

/-- C4, amended.  `isExcludedPath` returns true exactly when the path has an
absolute form and there is a configured pattern `p` such that, with `q` the
pattern after removing every `*` and trimming the white space at both ends,
the absolute form equals `q` case-insensitively (same length, and character
by character equal under simple case folding) or contains `q` as a
case-insensitive substring (the lower-cased absolute form contains the
lower-cased `q` as a contiguous run); with no pattern configured it returns
false.  This holds whatever the case tables are. -/
theorem isExcludedPath_iff (u : CaseTables) (getwd : Option Str) (path : Str)
    (config : Config) :
    (isExcludedPath u getwd path config = true ↔
      ∃ absPath, Filepath.abs getwd path = some absPath ∧
        ∃ p ∈ config.ExcludePaths.elems,
          List.Forall₂ (fun c d => u.foldEq c d = true) absPath
            (Strings.trimSpace (Strings.removeStars p)) ∨
          ∃ pre post, Strings.toLower u absPath
            = pre ++ Strings.toLower u (Strings.trimSpace (Strings.removeStars p)) ++ post) ∧
    (config.ExcludePaths.elems = [] → isExcludedPath u getwd path config = false) := by
  constructor
  · cases h : Filepath.abs getwd path with
    | none => simp [isExcludedPath, h]
    | some a =>
      rw [isExcludedPath_of_abs u getwd path a config h, excludedBy_iff]
      simp only [Strings.equalFold_iff, Strings.contains_iff, Option.some.injEq,
        exists_eq_left']
  · intro h
    cases h2 : Filepath.abs getwd path with
    | none => simp [isExcludedPath, h2]
    | some a => simp [isExcludedPath, h2, h, excludedBy]

theorem extAllowed_iff (u : CaseTables) (ext : Str) (allowedTypes : List Str) :
    extAllowed u ext allowedTypes = true ↔ ∃ t ∈ allowedTypes, ext = Strings.toLower u t := by
  induction allowedTypes with
  | nil => simp [extAllowed]
  | cons t rest ih =>
    simp only [extAllowed, List.mem_cons, exists_eq_or_imp]
    by_cases h : ext = Strings.toLower u t
    · simp [h]
    · simp [h, ih]

/-- The scan of `filepath.Ext` passes over characters that are neither a dot
nor a separator, collecting them. -/
theorem Filepath.extScan_plain (xs rest acc : Str)
    (hdot : '.' ∉ xs) (hsep : '/' ∉ xs) :
    Filepath.extScan (xs ++ rest) acc = Filepath.extScan rest (xs.reverse ++ acc) := by
  induction xs generalizing acc with
  | nil => simp
  | cons c xs ih =>
    simp only [List.mem_cons, not_or] at hdot hsep
    have h1 : c ≠ '/' := fun h => hsep.1 h.symm
    have h2 : c ≠ '.' := fun h => hdot.1 h.symm
    have := ih (c :: acc) hdot.2 hsep.2
    simp only [List.cons_append, Filepath.extScan, h1, h2, if_false]
    simpa using this

/-- The extension of a path whose last element has no dot is empty. -/
theorem Filepath.ext_no_dot (dirPart last : Str)
    (hdir : dirPart = [] ∨ dirPart.getLast? = some '/')
    (hsep : '/' ∉ last) (hdot : '.' ∉ last) :
    Filepath.ext (dirPart ++ last) = [] := by
  unfold Filepath.ext
  rw [List.reverse_append, Filepath.extScan_plain _ _ _ (by simpa using hdot) (by simpa using hsep)]
  rcases hdir with rfl | h
  · simp [Filepath.extScan]
  · obtain ⟨d, rfl⟩ : ∃ d, dirPart = d ++ ['/'] := by
      rcases List.eq_nil_or_concat dirPart with rfl | ⟨d, c, rfl⟩
      · simp at h
      · have hc : c = '/' := by simpa using h
        exact ⟨d, by simp [hc]⟩
    simp [Filepath.extScan]

/-- The extension of a path whose last element is `pre ++ "." ++ post`, with
no dot in `post`, is `"." ++ post`. -/
theorem Filepath.ext_last_dot (dirPart pre post : Str)
    (hsep : '/' ∉ post) (hdot : '.' ∉ post) :
    Filepath.ext (dirPart ++ (pre ++ '.' :: post)) = '.' :: post := by
  unfold Filepath.ext
  have : (dirPart ++ (pre ++ '.' :: post)).reverse
      = post.reverse ++ ('.' :: (pre.reverse ++ dirPart.reverse)) := by simp
  rw [this, Filepath.extScan_plain _ _ _ (by simpa using hdot) (by simpa using hsep)]
  simp [Filepath.extScan]

/-- C5.  With an empty allow-list every file name is allowed; with a
non-empty one a file name is allowed exactly when its extension equals some
entry after lower-casing both with `strings.ToLower`, whatever the case
tables are.  The extension is the suffix starting at the
last dot of the last path element (the part after the last separator), and
is empty when that element has no dot. -/
theorem isAllowedFileType_spec (u : CaseTables) (filename : Str) (allowedTypes : List Str) :
    (allowedTypes = [] → isAllowedFileType u filename allowedTypes = true) ∧
    (allowedTypes ≠ [] →
      (isAllowedFileType u filename allowedTypes = true ↔
        ∃ t ∈ allowedTypes,
          Strings.toLower u (Filepath.ext filename) = Strings.toLower u t)) ∧
    (∀ dirPart last, filename = dirPart ++ last →
      (dirPart = [] ∨ dirPart.getLast? = some '/') → '/' ∉ last →
      ('.' ∉ last → Filepath.ext filename = []) ∧
      (∀ pre post, last = pre ++ '.' :: post → '.' ∉ post →
        Filepath.ext filename = '.' :: post)) := by
  refine ⟨?_, ?_, ?_⟩
  · rintro rfl
    simp [isAllowedFileType]
  · intro hne
    have hlen : allowedTypes.length ≠ 0 := by
      simpa [List.length_eq_zero] using hne
    simp [isAllowedFileType, hlen, extAllowed_iff]
  · rintro dirPart last rfl hdir hsep
    refine ⟨fun hdot => Filepath.ext_no_dot dirPart last hdir hsep hdot, ?_⟩
    rintro pre post rfl hdot
    have hsep2 : '/' ∉ post := fun h => hsep (by simp [h])
    exact Filepath.ext_last_dot dirPart pre post hsep2 hdot

/-- The filters beyond ASCII, evaluated with the entries of `latinCase`: the
extension `.É` is allowed by the entry `.é`; the path `/a/Été` contains the
pattern `été` up to case; the path `/ſ` equals the pattern `/s` under case
folding, although their lower-case forms differ. -/
theorem filters_beyond_ascii :
    isAllowedFileType latinCase "/w/a.É".toList [".é".toList] = true ∧
    isExcludedPath latinCase (some "/".toList) "/a/Été".toList
      { defaultConfig with ExcludePaths := Slice.of ["été".toList] } = true ∧
    isExcludedPath latinCase (some "/".toList) "/ſ".toList
      { defaultConfig with ExcludePaths := Slice.of ["/s".toList] } = true ∧
    Strings.toLower latinCase "/ſ".toList ≠ Strings.toLower latinCase "/s".toList := by
  decide

/-! ## Command preparation and the worker -/

theorem argsLoop_succ (filePath : Str) (i : Nat) (rest args : List Str) :
    argsLoop filePath (i + 1) rest args
      = args ++ rest.map (fun a => if a = placeholder then filePath else a) := by
  induction rest generalizing i args with
  | nil => simp [argsLoop]
  | cons a rest ih =>
    by_cases h : a = placeholder
    · simp [argsLoop, h, ih]
    · simp [argsLoop, h, ih]

theorem prepareCommandArgs_args (env : Env) (fs : FS) (first : Str) (rest : List Str)
    (filePath : Str) :
    (prepareCommandArgs env fs (first :: rest) filePath).2
      = rest.map (fun a => if a = placeholder then filePath else a) := by
  simp [prepareCommandArgs, argsLoop, argsLoop_succ]

/-- C6.  For a non-empty token list the arguments are one fewer than the
tokens, and the argument at position `i` is the file path when token `i+1` is
exactly the placeholder and is token `i+1` itself otherwise; for the empty
token list the executable is empty and there are no arguments. -/
theorem prepareCommandArgs_spec (env : Env) (fs : FS) (command : List Str) (filePath : Str) :
    (command ≠ [] →
      (prepareCommandArgs env fs command filePath).2.length = command.length - 1 ∧
      ∀ i a, command[i + 1]? = some a →
        (prepareCommandArgs env fs command filePath).2[i]?
          = some (if a = placeholder then filePath else a)) ∧
    prepareCommandArgs env fs [] filePath = ([], []) := by
  refine ⟨?_, rfl⟩
  intro hne
  cases command with
  | nil => exact absurd rfl hne
  | cons first rest =>
    rw [prepareCommandArgs_args]
    refine ⟨by simp, ?_⟩
    intro i a h
    have h1 : rest[i]? = some a := by simpa using h
    simp [List.getElem?_map, h1]

/-- C7.  `processFile` runs the command list configured for the event kind;
when the command fails it returns an error and the world is as the command
left it (no post-processing); when it succeeds the result is that of
post-processing for every kind but Remove, and success with the world as the
command left it for Remove; for any other event kind string it returns an
error and the world, the commands run included, is unchanged. -/
theorem processFile_spec (env : Env) (filePath : Str) (config : Config)
    (eventType : EventType) (w : World) :
    (∀ cmd,
      (eventType = CreateEvent ∧ cmd = config.OnCreateRun.elems ∨
       eventType = RenameEvent ∧ cmd = config.OnRenameRun.elems ∨
       eventType = WriteEvent ∧ cmd = config.OnModifyRun.elems ∨
       eventType = RemoveEvent ∧ cmd = config.OnRemoveRun.elems) →
      (∀ w1 e, executeCommand env cmd filePath w = (w1, some e) →
        processFile env filePath config eventType w
          = (w1, some (Err.executingCommand filePath e))) ∧
      (∀ w1, executeCommand env cmd filePath w = (w1, none) →
        (eventType ≠ RemoveEvent →
          processFile env filePath config eventType w
            = handlePostProcessing env filePath config w1) ∧
        (eventType = RemoveEvent →
          processFile env filePath config eventType w = (w1, none)))) ∧
    (eventType ≠ CreateEvent → eventType ≠ RenameEvent → eventType ≠ WriteEvent →
      eventType ≠ RemoveEvent →
      processFile env filePath config eventType w
        = (w, some (Err.unknownEventType eventType))) := by
  constructor
  · intro cmd hsel
    have hs : selectCommand config eventType = some cmd := by
      rcases hsel with ⟨rfl, rfl⟩ | ⟨rfl, rfl⟩ | ⟨rfl, rfl⟩ | ⟨rfl, rfl⟩ <;>
        simp [selectCommand, CreateEvent, RenameEvent, WriteEvent, RemoveEvent]
    refine ⟨?_, ?_⟩
    · intro w1 e he
      simp [processFile, hs, he]
    · intro w1 he
      refine ⟨fun hne => ?_, fun heq => ?_⟩
      · simp [processFile, hs, he, hne]
      · subst heq
        simp [processFile, hs, he]
  · intro h1 h2 h3 h4
    simp [processFile, selectCommand, h1, h2, h3, h4]

/-- A Create task, evaluated: the command runs on the file in the directory
of the file, then the file is moved to the directory of processed files. -/
theorem processFile_example :
    (processFile quietEnv "/w/in/b.txt".toList moveConfig CreateEvent
      { fs := sampleFS, executed := [] }).2 = none ∧
    (processFile quietEnv "/w/in/b.txt".toList moveConfig CreateEvent
      { fs := sampleFS, executed := [] }).1.executed
      = [{ Path := "cat".toList, Args := ["/w/in/b.txt".toList], Dir := "/w/in".toList }] ∧
    FS.has (processFile quietEnv "/w/in/b.txt".toList moveConfig CreateEvent
      { fs := sampleFS, executed := [] }).1.fs "/w/done/b.txt".toList = true := by
  decide

/-! ## Debouncing of a sequence of events -/

theorem handleEvent_qualifying (u : CaseTables) (getwd : Option Str) (config : Config) (P : Str)
    (st : State) (ev : Occurrence) (h : qualifies u getwd config P ev = true) :
    handleEvent u getwd config st ev
      = debounceAndSend ev.now P (eventSuffix ev.kind) config st := by
  simp only [qualifies, Bool.and_eq_true, decide_eq_true_eq, Bool.not_eq_true'] at h
  obtain ⟨⟨⟨⟨hp, hex⟩, hfi⟩, hal⟩, hk⟩ := h
  have hlen : ∀ l : List Str, l ≠ [] → l.length > 0 := fun l hl =>
    List.length_pos.mpr hl
  cases hkind : ev.kind with
  | Create =>
    rw [hkind] at hk
    simp [handleEvent, hkind, handleCreateEvent, hp, hex, hfi, hal, eventSuffix,
      hlen _ (by simpa using hk)]
  | Rename =>
    rw [hkind] at hk
    simp [handleEvent, hkind, handleRenameEvent, hp, hex, hfi, hal, eventSuffix,
      hlen _ (by simpa using hk)]
  | Write =>
    rw [hkind] at hk
    simp [handleEvent, hkind, handleWriteEvent, hp, hal, eventSuffix,
      hlen _ (by simpa using hk)]
  | Remove =>
    rw [hkind] at hk
    simp at hk

theorem handleEvents_debounced (u : CaseTables) (getwd : Option Str) (config : Config) (P : Str)
    (events : List Occurrence) (st : State)
    (hq : ∀ ev ∈ events, qualifies u getwd config P ev = true)
    (hlo : -9223372036854 ≤ config.Debounce) (hhi : config.Debounce ≤ 9223372036854) :
    (handleEvents u getwd config st events).taskQueue
      = st.taskQueue
        ++ (debounced (config.Debounce * Millisecond) (st.lastEventTimes P) events).map taskOf := by
  induction events generalizing st with
  | nil => simp [handleEvents, debounced]
  | cons ev rest ih =>
    have hev := hq ev (List.mem_cons_self _ _)
    have hrest : ∀ e ∈ rest, qualifies u getwd config P e = true :=
      fun e he => hq e (List.mem_cons_of_mem _ he)
    have hpath : ev.path = P := by
      simp only [qualifies, Bool.and_eq_true, decide_eq_true_eq] at hev
      exact hev.1.1.1.1
    have hfold : handleEvents u getwd config st (ev :: rest)
        = handleEvents u getwd config (handleEvent u getwd config st ev) rest := by
      simp [handleEvents]
    rw [hfold, ih _ hrest, handleEvent_qualifying u getwd config P st ev hev]
    unfold debounceAndSend shouldProcessEvent
    cases hreg : st.lastEventTimes P with
    | none => simp [debounced, taskOf, hpath]
    | some t =>
      have hiff := debounce_test_iff ev.now t config.Debounce hlo hhi
      by_cases hd : ev.now - t ≥ config.Debounce * Millisecond
      · have hc := hiff.mpr hd
        simp [debounced, hd, hc, taskOf, hpath]
      · have hc : ¬ timeSub ev.now t ≥ milliseconds config.Debounce := fun h => hd (hiff.mp h)
        simp [debounced, hd, hc, hreg]

theorem debounced_separated (window t : Int) (events : List Occurrence)
    (hmono : events.Pairwise (fun a b => a.now ≤ b.now))
    (hlb : ∀ e ∈ events, t ≤ e.now) :
    (∀ a ∈ debounced window (some t) events, a.now - t ≥ window ∧ a ∈ events) ∧
    (debounced window (some t) events).Pairwise (fun a b => b.now - a.now ≥ window) := by
  induction events generalizing t with
  | nil => simp [debounced]
  | cons ev rest ih =>
    rw [List.pairwise_cons] at hmono
    have hev : t ≤ ev.now := hlb ev (List.mem_cons_self _ _)
    by_cases hd : ev.now - t ≥ window
    · obtain ⟨h1, h2⟩ := ih ev.now hmono.2 hmono.1
      simp only [debounced, hd, if_true, List.mem_cons, List.pairwise_cons]
      refine ⟨?_, fun a ha => (h1 a ha).1, h2⟩
      rintro a (rfl | ha)
      · exact ⟨hd, Or.inl rfl⟩
      · have := (h1 a ha).1
        exact ⟨by omega, Or.inr (h1 a ha).2⟩
    · obtain ⟨h1, h2⟩ := ih t hmono.2 (fun e he => hlb e (List.mem_cons_of_mem _ he))
      simp only [debounced, hd, if_false]
      exact ⟨fun a ha => ⟨(h1 a ha).1, List.mem_cons_of_mem _ (h1 a ha).2⟩, h2⟩

/-- C3, counterexample to the claim as stated.  With a debounce window of
9223372036855 ms, which wraps around to a negative duration, a Create and a
Write on `/w/a.txt` one millisecond apart are both enqueued, although they
are less than the window apart. -/
theorem handleEvents_two_tasks_within_huge_window :
    emptyState.lastEventTimes "/w/a.txt".toList = none ∧
    (∀ ev ∈ twoEvents,
      qualifies asciiCase (some "/".toList) hugeWindowConfig "/w/a.txt".toList ev = true) ∧
    twoEvents.Pairwise (fun a b => a.now ≤ b.now) ∧
    (1000000 : Int) - 0 < hugeWindowConfig.Debounce * Millisecond ∧
    (handleEvents asciiCase (some "/".toList) hugeWindowConfig emptyState twoEvents).taskQueue
      = ["/w/a.txt?event=create".toList, "/w/a.txt?event=write".toList] := by
  decide

/-- The input of the counterexample of C3 for every case table: no
exclusion pattern and no allow-list is configured, so no table is consulted. -/
theorem handleEvents_two_tasks_any_tables (u : CaseTables) :
    (handleEvents u (some "/".toList) hugeWindowConfig emptyState twoEvents).taskQueue
      = ["/w/a.txt?event=create".toList, "/w/a.txt?event=write".toList] := by
  rfl

/-- C3, amended.  Let the debounce window be one a `time.Duration` can hold
(at most 9223372036854 ms in absolute value).  Start from a registry with no
entry for `P` and feed qualifying events on `P` with non-decreasing
instants.  The tasks sent are exactly those
of the events the specification enqueues (the first one, and each one at
least the debounce window after the most recently enqueued one), in order;
any two enqueued events are at least the window apart; two events less than
the window apart give one task, and two events at least the window apart
give two. -/
theorem debounce_sequence (u : CaseTables) (getwd : Option Str) (config : Config) (P : Str) (st : State)
    (events : List Occurrence)
    (hreg : st.lastEventTimes P = none)
    (hq : ∀ ev ∈ events, qualifies u getwd config P ev = true)
    (hmono : events.Pairwise (fun a b => a.now ≤ b.now))
    (hlo : -9223372036854 ≤ config.Debounce) (hhi : config.Debounce ≤ 9223372036854) :
    (handleEvents u getwd config st events).taskQueue
      = st.taskQueue
        ++ (debounced (config.Debounce * Millisecond) none events).map taskOf ∧
    (debounced (config.Debounce * Millisecond) none events).Pairwise
      (fun a b => b.now - a.now ≥ config.Debounce * Millisecond) ∧
    (∀ e1 e2, events = [e1, e2] → e2.now - e1.now < config.Debounce * Millisecond →
      (handleEvents u getwd config st events).taskQueue = st.taskQueue ++ [taskOf e1]) ∧
    (∀ e1 e2, events = [e1, e2] → e2.now - e1.now ≥ config.Debounce * Millisecond →
      (handleEvents u getwd config st events).taskQueue
        = st.taskQueue ++ [taskOf e1, taskOf e2]) := by
  have hmain := handleEvents_debounced u getwd config P events st hq hlo hhi
  rw [hreg] at hmain
  refine ⟨hmain, ?_, ?_, ?_⟩
  · cases events with
    | nil => simp [debounced]
    | cons ev rest =>
      rw [List.pairwise_cons] at hmono
      obtain ⟨h1, h2⟩ := debounced_separated (config.Debounce * Millisecond) ev.now rest
        hmono.2 hmono.1
      simp only [debounced, List.pairwise_cons]
      exact ⟨fun a ha => (h1 a ha).1, h2⟩
  · rintro e1 e2 rfl hlt
    rw [hmain]
    have : ¬ e2.now - e1.now ≥ config.Debounce * Millisecond := by omega
    simp [debounced, this]
  · rintro e1 e2 rfl hge
    rw [hmain]
    simp [debounced, hge]

/-- Witness of C3: a Create, a Write 50 ms later and a Rename 100 ms after
that, with a window of 100 ms: the Create and the Rename are enqueued. -/
theorem debounce_sequence_witness :
    emptyState.lastEventTimes "/w/a.txt".toList = none ∧
    (∀ ev ∈ burst, qualifies asciiCase (some "/".toList) catConfig "/w/a.txt".toList ev = true) ∧
    burst.Pairwise (fun a b => a.now ≤ b.now) ∧
    -9223372036854 ≤ catConfig.Debounce ∧ catConfig.Debounce ≤ 9223372036854 ∧
    (handleEvents asciiCase (some "/".toList) catConfig emptyState burst).taskQueue
      = ["/w/a.txt?event=create".toList, "/w/a.txt?event=rename".toList] := by
  refine ⟨rfl, by decide, by decide, by decide, by decide, ?_⟩
  rw [(debounce_sequence asciiCase (some "/".toList) catConfig "/w/a.txt".toList emptyState burst
    rfl (by decide) (by decide) (by decide) (by decide)).1]
  decide

/-! ## Clean absolute paths -/

/-- An element that `filepath.Clean` keeps in an absolute path. -/
theorem Filepath.splitSlash_ne_nil (s : Str) : Filepath.splitSlash s ≠ [] := by
  cases s with
  | nil => simp [Filepath.splitSlash]
  | cons c s =>
    simp only [Filepath.splitSlash]
    split
    · simp
    · split <;> simp

theorem Filepath.splitSlash_no_sep (s : Str) : ∀ e ∈ Filepath.splitSlash s, '/' ∉ e := by
  induction s with
  | nil => simp [Filepath.splitSlash]
  | cons c s ih =>
    simp only [Filepath.splitSlash]
    by_cases hc : c = '/'
    · simp only [hc, if_true, List.mem_cons]
      rintro e (rfl | he)
      · simp
      · exact ih e he
    · simp only [hc, if_false]
      cases hs : Filepath.splitSlash s with
      | nil => exact absurd hs (Filepath.splitSlash_ne_nil s)
      | cons h r =>
        rw [hs] at ih
        simp only [List.mem_cons]
        rintro e (rfl | he)
        · have := ih h (List.mem_cons_self _ _)
          simp only [List.mem_cons, not_or]
          exact ⟨fun h => hc h.symm, this⟩
        · exact ih e (List.mem_cons_of_mem _ he)

theorem Filepath.splitSlash_plain (e : Str) (h : '/' ∉ e) : Filepath.splitSlash e = [e] := by
  induction e with
  | nil => simp [Filepath.splitSlash]
  | cons c e ih =>
    simp only [List.mem_cons, not_or] at h
    have hc : c ≠ '/' := fun hc => h.1 hc.symm
    simp [Filepath.splitSlash, hc, ih h.2]

theorem Filepath.splitSlash_append (e s : Str) (h : '/' ∉ e) :
    Filepath.splitSlash (e ++ '/' :: s) = e :: Filepath.splitSlash s := by
  induction e with
  | nil => simp [Filepath.splitSlash]
  | cons c e ih =>
    simp only [List.mem_cons, not_or] at h
    have hc : c ≠ '/' := fun hc => h.1 hc.symm
    simp [Filepath.splitSlash, hc, ih h.2]

theorem Filepath.splitSlash_joinSlash (comps : List Str) (hne : comps ≠ [])
    (h : ∀ e ∈ comps, '/' ∉ e) :
    Filepath.splitSlash (Filepath.joinSlash comps) = comps := by
  induction comps with
  | nil => exact absurd rfl hne
  | cons e rest ih =>
    cases rest with
    | nil => simpa [Filepath.joinSlash] using Filepath.splitSlash_plain e (h e (by simp))
    | cons f rest =>
      simp only [Filepath.joinSlash]
      rw [Filepath.splitSlash_append e _ (h e (by simp)),
        ih (by simp) (fun x hx => h x (List.mem_cons_of_mem _ hx))]

/-- The elements kept by the scan of `filepath.Clean` on an absolute path
are proper names: not empty, not `.`, not `..`, without separator. -/
theorem Filepath.cleanStep_rooted_inv (es : List Str) (out : List Str)
    (hes : ∀ e ∈ es, '/' ∉ e)
    (hout : ∀ e ∈ out, e ≠ [] ∧ e ≠ ['.'] ∧ e ≠ ['.', '.'] ∧ '/' ∉ e) :
    ∀ e ∈ es.foldl (Filepath.cleanStep true) out,
      e ≠ [] ∧ e ≠ ['.'] ∧ e ≠ ['.', '.'] ∧ '/' ∉ e := by
  induction es generalizing out with
  | nil => simpa using hout
  | cons x es ih =>
    simp only [List.foldl_cons]
    apply ih _ (fun e he => hes e (List.mem_cons_of_mem _ he))
    unfold Filepath.cleanStep
    by_cases h1 : x = [] ∨ x = ['.']
    · simpa [h1] using hout
    · by_cases h2 : x = ['.', '.']
      · simp only [h1, h2, if_false, if_true]
        cases out with
        | nil => simp
        | cons top rest =>
          have htop := (hout top (List.mem_cons_self _ _)).2.2.1
          simp only [htop, if_false]
          exact fun e he => hout e (List.mem_cons_of_mem _ he)
      · simp only [h1, h2, if_false]
        intro e he
        rcases List.mem_cons.mp he with rfl | he
        · exact ⟨fun h => h1 (Or.inl h), fun h => h1 (Or.inr h), h2,
            hes _ (List.mem_cons_self _ _)⟩
        · exact hout e he

theorem Filepath.cleanStep_push (comps out : List Str)
    (h : ∀ e ∈ comps, e ≠ [] ∧ e ≠ ['.'] ∧ e ≠ ['.', '.'] ∧ '/' ∉ e) :
    comps.foldl (Filepath.cleanStep true) out = comps.reverse ++ out := by
  induction comps generalizing out with
  | nil => simp
  | cons e rest ih =>
    obtain ⟨h1, h2, h3, _⟩ := h e (List.mem_cons_self _ _)
    simp only [List.foldl_cons]
    rw [ih _ (fun x hx => h x (List.mem_cons_of_mem _ hx))]
    simp [Filepath.cleanStep, h1, h2, h3]

/-- Cleaning an absolute path gives an absolute path. -/
theorem Filepath.isAbs_clean (p : Str) (h : Filepath.isAbs p = true) :
    Filepath.isAbs (Filepath.clean p) = true := by
  unfold Filepath.clean
  simp only [h, if_true]
  rfl

/-- Cleaning an absolute path twice is cleaning it once. -/
theorem Filepath.clean_clean (p : Str) (h : Filepath.isAbs p = true) :
    Filepath.clean (Filepath.clean p) = Filepath.clean p := by
  have hinv := Filepath.cleanStep_rooted_inv (Filepath.splitSlash p) []
    (Filepath.splitSlash_no_sep p) (by simp)
  generalize hout : (Filepath.splitSlash p).foldl (Filepath.cleanStep true) [] = out at hinv
  have hc : Filepath.clean p = '/' :: Filepath.joinSlash out.reverse := by
    unfold Filepath.clean
    simp only [h, if_true, hout]
  rw [hc]
  have hinv2 : ∀ e ∈ out.reverse, e ≠ [] ∧ e ≠ ['.'] ∧ e ≠ ['.', '.'] ∧ '/' ∉ e :=
    fun e he => hinv e (List.mem_reverse.mp he)
  have hsplit : Filepath.splitSlash ('/' :: Filepath.joinSlash out.reverse)
      = [] :: Filepath.splitSlash (Filepath.joinSlash out.reverse) := by
    simp [Filepath.splitSlash]
  have hfold : (Filepath.splitSlash ('/' :: Filepath.joinSlash out.reverse)).foldl
      (Filepath.cleanStep true) [] = out := by
    rw [hsplit]
    simp only [List.foldl_cons]
    have h0 : Filepath.cleanStep true [] [] = [] := by simp [Filepath.cleanStep]
    rw [h0]
    by_cases hnil : out.reverse = []
    · have : out = [] := by simpa using hnil
      subst this
      simp [Filepath.joinSlash, Filepath.splitSlash, Filepath.cleanStep]
    · rw [Filepath.splitSlash_joinSlash _ hnil (fun e he => (hinv2 e he).2.2.2),
        Filepath.cleanStep_push _ _ hinv2]
      simp
  have habs : Filepath.isAbs ('/' :: Filepath.joinSlash out.reverse) = true := rfl
  unfold Filepath.clean
  simp only [habs, if_true, hfold]

theorem Filepath.isAbs_iff (p : Str) : Filepath.isAbs p = true ↔ ∃ t, p = '/' :: t := by
  unfold Filepath.isAbs
  split
  · simp
  · rename_i h
    simp only [Bool.false_eq_true, false_iff, not_exists]
    intro t ht
    exact h t ht

theorem Filepath.abs_clean (getwd : Option Str)
    (hwd : ∀ wd, getwd = some wd → Filepath.isAbs wd = true) (p a : Str)
    (h : Filepath.abs getwd p = some a) :
    Filepath.isAbs a = true ∧ Filepath.clean a = a := by
  unfold Filepath.abs at h
  by_cases hp : Filepath.isAbs p = true
  · simp only [hp, if_true, Option.some.injEq] at h
    subst h
    exact ⟨Filepath.isAbs_clean p hp, Filepath.clean_clean p hp⟩
  · cases hg : getwd with
    | none => simp [hg, hp] at h
    | some wd =>
      have hw := hwd wd hg
      simp only [hg, hp] at h
      obtain ⟨tl, rfl⟩ := (Filepath.isAbs_iff wd).mp hw
      have hj : Filepath.isAbs (('/' :: tl) ++ '/' :: p) = true := rfl
      simp [Filepath.join] at h
      subst h
      exact ⟨Filepath.isAbs_clean _ hj, Filepath.clean_clean _ hj⟩

/-- The clean form of an absolute path is the root followed by proper
names with separators between them. -/
theorem Filepath.clean_rooted_shape (p : Str) (h : Filepath.isAbs p = true) :
    ∃ comps, Filepath.clean p = '/' :: Filepath.joinSlash comps ∧
      ∀ e ∈ comps, e ≠ [] ∧ e ≠ ['.'] ∧ e ≠ ['.', '.'] ∧ '/' ∉ e := by
  have hinv := Filepath.cleanStep_rooted_inv (Filepath.splitSlash p) []
    (Filepath.splitSlash_no_sep p) (by simp)
  refine ⟨((Filepath.splitSlash p).foldl (Filepath.cleanStep true) []).reverse, ?_,
    fun e he => hinv e (List.mem_reverse.mp he)⟩
  unfold Filepath.clean
  simp only [h, if_true]

theorem Filepath.joinSlash_ne_nil (e : Str) (rest : List Str) (he : e ≠ []) :
    Filepath.joinSlash (e :: rest) ≠ [] := by
  cases rest with
  | nil => simpa [Filepath.joinSlash] using he
  | cons f rest => simp [Filepath.joinSlash, he]

theorem Filepath.joinSlash_append_singleton (pre : List Str) (e : Str) (hpre : pre ≠ []) :
    Filepath.joinSlash (pre ++ [e]) = Filepath.joinSlash pre ++ '/' :: e := by
  induction pre with
  | nil => exact absurd rfl hpre
  | cons a rest ih =>
    cases rest with
    | nil => simp [Filepath.joinSlash]
    | cons b r =>
      have h1 := ih (by simp)
      show a ++ '/' :: Filepath.joinSlash ((b :: r) ++ [e])
        = (a ++ '/' :: Filepath.joinSlash (b :: r)) ++ '/' :: e
      rw [h1]
      simp

/-! ## Paths followed as written -/

theorem FS.walk_eq_foldl (fs : FS) (es : List Str) (cur n : Str)
    (h : FS.walk fs cur es = some n) : n = es.foldl FS.step cur := by
  induction es generalizing cur with
  | nil =>
    simp only [FS.walk, Option.some.injEq] at h
    simp [h]
  | cons e es ih =>
    simp only [FS.walk] at h
    split at h
    · cases h
    · split at h
      · cases h
      · simpa using ih _ h

theorem FS.step_name_root (e : Str) (h1 : e ≠ []) (h2 : e ≠ ['.']) (h3 : e ≠ ['.', '.']) :
    FS.step FS.root e = '/' :: e := by
  simp [FS.step, h1, h2, h3, FS.root]

theorem FS.step_name (cur e : Str) (hc : cur ≠ FS.root) (h1 : e ≠ []) (h2 : e ≠ ['.'])
    (h3 : e ≠ ['.', '.']) : FS.step cur e = cur ++ '/' :: e := by
  simp [FS.step, h1, h2, h3, hc]

/-- Following proper names from a clean absolute path appends them. -/
theorem FS.foldl_step_names (rest pre : List Str) (hpre : pre ≠ [])
    (hn : ∀ e ∈ pre ++ rest, e ≠ [] ∧ e ≠ ['.'] ∧ e ≠ ['.', '.'] ∧ '/' ∉ e) :
    rest.foldl FS.step ('/' :: Filepath.joinSlash pre)
      = '/' :: Filepath.joinSlash (pre ++ rest) := by
  induction rest generalizing pre with
  | nil => simp
  | cons e rest ih =>
    obtain ⟨h1, h2, h3, _⟩ := hn e (by simp)
    have hne : '/' :: Filepath.joinSlash pre ≠ FS.root := by
      cases pre with
      | nil => exact absurd rfl hpre
      | cons a r =>
        have ha := (hn a (by simp)).1
        have := Filepath.joinSlash_ne_nil a r ha
        simpa [FS.root] using this
    simp only [List.foldl_cons]
    rw [FS.step_name _ e hne h1 h2 h3]
    have hcons : ('/' :: Filepath.joinSlash pre) ++ '/' :: e
        = '/' :: Filepath.joinSlash (pre ++ [e]) := by
      rw [Filepath.joinSlash_append_singleton pre e hpre]
      rfl
    rw [hcons, ih (pre ++ [e]) (by simp) (by simpa using hn)]
    simp

/-- Followed from the root, the elements of a clean absolute path lead to
that path. -/
theorem FS.foldl_step_clean (p : Str) (h : Filepath.isAbs p = true) :
    (Filepath.splitSlash (Filepath.clean p)).foldl FS.step FS.root = Filepath.clean p := by
  obtain ⟨comps, hc, hn⟩ := Filepath.clean_rooted_shape p h
  rw [hc]
  have hsplit : Filepath.splitSlash ('/' :: Filepath.joinSlash comps)
      = [] :: Filepath.splitSlash (Filepath.joinSlash comps) := by
    simp [Filepath.splitSlash]
  have h0 : FS.step FS.root [] = FS.root := by simp [FS.step]
  rw [hsplit, List.foldl_cons, h0]
  cases comps with
  | nil => simp [Filepath.joinSlash, Filepath.splitSlash, FS.step, FS.root]
  | cons e rest =>
    rw [Filepath.splitSlash_joinSlash _ (by simp) (fun x hx => (hn x hx).2.2.2)]
    obtain ⟨h1, h2, h3, _⟩ := hn e (by simp)
    rw [List.foldl_cons, FS.step_name_root e h1 h2 h3]
    have := FS.foldl_step_names rest [e] (by simp) (by simpa using hn)
    simpa [Filepath.joinSlash] using this

/-- Where the system can follow the absolute form of a path, it arrives at
that very path. -/
theorem resolvePath_abs (getwd : Option Str)
    (hwd : ∀ wd, getwd = some wd → Filepath.isAbs wd = true) (fs : FS) (p a n : Str)
    (h : Filepath.abs getwd p = some a) (hr : resolvePath getwd fs a = some n) : n = a := by
  obtain ⟨h1, h2⟩ := Filepath.abs_clean getwd hwd p a h
  have hne : a ≠ [] := by
    rintro rfl
    simp [Filepath.isAbs] at h1
  simp only [resolvePath, hne, h1, if_false, if_true] at hr
  have := FS.walk_eq_foldl fs _ _ _ hr
  rw [this]
  have hc := FS.foldl_step_clean a h1
  rw [h2] at hc
  exact hc

theorem FS.lookup_eq_none (fs : FS) (p : Str) :
    FS.lookup fs p = none ↔ ∀ e ∈ fs, e.1 ≠ p := by
  induction fs with
  | nil => simp [FS.lookup]
  | cons e rest ih =>
    obtain ⟨q, n⟩ := e
    by_cases h : q = p
    · simp only [FS.lookup, h, if_true, List.mem_cons, forall_eq_or_imp, ne_eq,
        not_true_eq_false, false_and]
      simp
    · simp only [FS.lookup, h, if_false, ih, List.mem_cons, forall_eq_or_imp, ne_eq,
        not_false_eq_true, true_and]

theorem FS.mem_of_lookup (fs : FS) (p : Str) (n : Node) (h : FS.lookup fs p = some n) :
    (p, n) ∈ fs := by
  induction fs with
  | nil => simp [FS.lookup] at h
  | cons e rest ih =>
    obtain ⟨q, m⟩ := e
    by_cases hq : q = p
    · simp only [FS.lookup, hq, if_true, Option.some.injEq] at h
      simp [hq, h]
    · simp only [FS.lookup, hq, if_false] at h
      exact List.mem_cons_of_mem _ (ih h)

theorem FS.has_of_mem (fs : FS) (p : Str) (n : Node) (h : (p, n) ∈ fs) :
    FS.has fs p = true := by
  unfold FS.has FS.node
  by_cases hr : p = FS.root
  · simp [hr]
  · simp only [hr, if_false]
    cases hl : FS.lookup fs p with
    | none => exact absurd rfl ((FS.lookup_eq_none fs p).mp hl (p, n) h)
    | some m => rfl

theorem FS.has_eq_false (fs : FS) (p : Str) (hr : p ≠ FS.root)
    (h : ∀ e ∈ fs, e.1 ≠ p) : FS.has fs p = false := by
  simp [FS.has, FS.node, hr, (FS.lookup_eq_none fs p).mpr h]

theorem FS.lookup_append (a b : FS) (p : Str) :
    FS.lookup (a ++ b) p = (FS.lookup a p).or (FS.lookup b p) := by
  induction a with
  | nil => simp [FS.lookup]
  | cons e rest ih =>
    obtain ⟨q, n⟩ := e
    by_cases h : q = p
    · simp [FS.lookup, h]
    · simpa [FS.lookup, h] using ih

theorem FS.node_append_of_ne_none (fs extra : FS) (p : Str) (h : FS.node fs p ≠ none) :
    FS.node (fs ++ extra) p = FS.node fs p := by
  unfold FS.node at h ⊢
  by_cases hr : p = FS.root
  · simp [hr]
  · simp only [hr, if_false] at h ⊢
    rw [FS.lookup_append]
    cases hl : FS.lookup fs p with
    | none => exact absurd hl h
    | some n => rfl

/-- Creating directories leaves what already exists as it is. -/
theorem FS.mkdirWalk_node (es : List Str) (fs : FS) (cur p : Str)
    (hp : FS.node fs p ≠ none) :
    FS.node (FS.mkdirWalk fs cur es).1 p = FS.node fs p := by
  induction es generalizing fs cur with
  | nil => rfl
  | cons e es ih =>
    simp only [FS.mkdirWalk]
    split
    · rfl
    · split
      · exact ih fs cur hp
      · split
        · split
          · rfl
          · exact ih fs _ hp
        · split
          · exact ih fs _ hp
          · rfl
          · have h1 := FS.node_append_of_ne_none fs [(FS.step cur e, Node.dir)] p hp
            rw [ih _ _ (by rw [h1]; exact hp), h1]

theorem FS.lookup_map_rebase (fs : FS) (old new : Str)
    (hnew : ∀ e ∈ fs, e.1 ≠ old → FS.rebase old new e.1 ≠ new) :
    FS.lookup (fs.map (fun e => (FS.rebase old new e.1, e.2))) new = FS.lookup fs old := by
  induction fs with
  | nil => simp [FS.lookup]
  | cons e rest ih =>
    obtain ⟨q, n⟩ := e
    have hrest : ∀ e ∈ rest, e.1 ≠ old → FS.rebase old new e.1 ≠ new :=
      fun e he => hnew e (List.mem_cons_of_mem _ he)
    by_cases hq : q = old
    · simp [FS.lookup, hq, FS.rebase]
    · have h1 := hnew (q, n) (List.mem_cons_self _ _) hq
      simp only [List.map_cons, FS.lookup, h1, hq, if_false]
      exact ih hrest

/-- After a successful `os.Rename` what was at the old path is at the new
path, and nothing is at the old path unless it is the new path. -/
theorem FS.rename_spec (fs fs1 : FS) (old new : Str) (h : FS.rename fs old new = some fs1) :
    FS.node fs1 new = FS.node fs old ∧ FS.has fs1 new = true ∧
      (old ≠ new → FS.has fs1 old = false) := by
  unfold FS.rename at h
  by_cases hroot : old = FS.root
  · simp [hroot] at h
  by_cases hnd : FS.node fs new = some Node.dir
  · simp [hroot, hnd] at h
  simp only [hroot, hnd, if_false] at h
  have hnr : new ≠ FS.root := by
    rintro rfl
    simp [FS.node] at hnd
  cases ho : FS.node fs old with
  | none => simp [ho] at h
  | some k =>
    have hlo : FS.lookup fs old = some k := by simpa [FS.node, hroot] using ho
    cases k with
    | file =>
      simp only [ho] at h
      by_cases heq : old = new
      · rw [if_pos heq] at h
        simp only [Option.some.injEq] at h
        subst h
        refine ⟨by rw [← heq]; exact ho, ?_, fun hne => absurd heq hne⟩
        rw [← heq]
        exact FS.has_of_mem fs old _ (FS.mem_of_lookup fs old _ hlo)
      · rw [if_neg heq] at h
        simp only [Option.some.injEq] at h
        subst h
        refine ⟨?_, FS.has_of_mem _ new Node.file (by simp), fun _ => ?_⟩
        · have hgone : FS.lookup (FS.erase (FS.erase fs old) new) new = none := by
            rw [FS.lookup_eq_none]
            intro e he
            simp only [FS.erase, List.mem_filter, decide_eq_true_eq] at he
            exact he.2
          simp [FS.node, hnr, FS.lookup_append, hgone, FS.lookup]
        · apply FS.has_eq_false _ _ hroot
          intro e he
          rcases List.mem_append.mp he with he | he
          · simp only [FS.erase, List.mem_filter, decide_eq_true_eq] at he
            exact he.1.2
          · simp only [List.mem_singleton] at he
            subst he
            exact fun hx => heq hx.symm
    | dir =>
      simp only [ho] at h
      have hne : old ≠ new := by
        rintro rfl
        exact hnd ho
      by_cases hnf : FS.node fs new = some Node.file
      · simp [hnf] at h
      by_cases hu1 : FS.under old new = true
      · simp [hnf, hu1] at h
      by_cases hu2 : FS.under new old = true
      · simp [hnf, hu1, hu2] at h
      simp [hnf, hu1, hu2] at h
      subst h
      have hnone : FS.lookup fs new = none := by
        cases hl : FS.lookup fs new with
        | none => rfl
        | some k =>
          have : FS.node fs new = some k := by simp [FS.node, hnr, hl]
          cases k with
          | file => exact absurd this hnf
          | dir => exact absurd this hnd
      have hunder : ∀ q, FS.under old q = true → ∃ post, q = old ++ '/' :: post := by
        intro q hu
        simp only [FS.under, hroot, if_false, Bool.and_eq_true, decide_eq_true_eq,
          Strings.hasPrefix_iff] at hu
        obtain ⟨_, post, hpost⟩ := hu
        exact ⟨post, by rw [hpost]; simp⟩
      refine ⟨?_, ?_, fun _ => ?_⟩
      · have hkey : ∀ e ∈ fs, e.1 ≠ old → FS.rebase old new e.1 ≠ new := by
          intro e he hq
          simp only [FS.rebase, hq, if_false]
          by_cases hu : FS.under old e.1 = true
          · obtain ⟨post, hpost⟩ := hunder e.1 hu
            simp only [hu, if_true]
            rw [hpost]
            intro hx
            have := congrArg List.length hx
            simp at this
          · simp only [hu, if_false]
            exact (FS.lookup_eq_none fs new).mp hnone e he
        simp only [FS.node, hnr, hroot, if_false]
        rw [FS.lookup_map_rebase fs old new hkey]
        exact hlo
      · apply FS.has_of_mem _ new Node.dir
        have hm := FS.mem_of_lookup fs old _ hlo
        exact List.mem_map.mpr ⟨(old, Node.dir), hm, by simp [FS.rebase]⟩
      · apply FS.has_eq_false _ _ hroot
        intro e he
        obtain ⟨⟨q, n⟩, _, rfl⟩ := List.mem_map.mp he
        simp only [FS.rebase]
        by_cases hq : q = old
        · simp only [hq, if_true]
          exact fun hx => hne hx.symm
        · simp only [hq, if_false]
          by_cases hu : FS.under old q = true
          · simp only [hu, if_true]
            intro hx
            apply hu2
            obtain ⟨post, hpost⟩ := hunder q hu
            have hdrop : q.drop old.length = '/' :: post := by
              rw [hpost]
              simp
            rw [hdrop] at hx
            simp only [FS.under, hnr, if_false, Bool.and_eq_true, decide_eq_true_eq,
              Strings.hasPrefix_iff]
            exact ⟨hne, post, by rw [← hx]; simp⟩
          · simp only [hu, if_false]
            exact hq

/-- After a successful `os.Remove` nothing exists at the path. -/
theorem FS.remove_spec (fs fs1 : FS) (p : Str) (h : FS.remove fs p = some fs1) :
    FS.has fs1 p = false := by
  unfold FS.remove at h
  by_cases hroot : p = FS.root
  · simp [hroot] at h
  simp only [hroot, if_false] at h
  have herase : FS.has (FS.erase fs p) p = false := by
    apply FS.has_eq_false _ _ hroot
    intro e he
    simp only [FS.erase, List.mem_filter, decide_eq_true_eq] at he
    exact he.2
  cases ho : FS.node fs p with
  | none => simp [ho] at h
  | some k =>
    cases k with
    | file =>
      simp only [ho, Option.some.injEq] at h
      subst h
      exact herase
    | dir =>
      simp only [ho] at h
      split at h
      · simp at h
      · simp only [Option.some.injEq] at h
        subst h
        exact herase

/-! ## System calls on paths as written -/

/-- What exists before `os.MkdirAll` exists unchanged after it, whether it
succeeds or not. -/
theorem osMkdirAll_node (getwd : Option Str) (fs : FS) (path p : Str)
    (hp : FS.node fs p ≠ none) :
    FS.node (osMkdirAll getwd fs path).1 p = FS.node fs p := by
  unfold osMkdirAll
  split
  · rfl
  · split
    · exact FS.mkdirWalk_node _ fs _ p hp
    · cases getwd with
      | none => rfl
      | some wd => exact FS.mkdirWalk_node _ fs _ p hp

/-- After a successful `os.Rename` what the old path led to is at the entry
the new path leads to, and nothing is at the old entry unless it is the new
one. -/
theorem osRename_spec (getwd : Option Str) (fs fs1 : FS) (oldpath newpath : Str)
    (h : osRename getwd fs oldpath newpath = some fs1) :
    ∃ o n, resolvePath getwd fs oldpath = some o ∧ resolvePath getwd fs newpath = some n ∧
      FS.node fs1 n = FS.node fs o ∧ FS.has fs1 n = true ∧
      (o ≠ n → FS.has fs1 o = false) := by
  unfold osRename at h
  split at h
  · cases h
  · cases ho : resolvePath getwd fs oldpath with
    | none => simp [ho] at h
    | some o =>
      cases hn : resolvePath getwd fs newpath with
      | none => simp [ho, hn] at h
      | some n =>
        simp only [ho, hn] at h
        split at h
        · rename_i hsame
          simp only [Option.some.injEq] at h
          subst h
          obtain ⟨hdir, heq, _, _⟩ := hsame
          refine ⟨o, n, rfl, rfl, by rw [heq], by simp [FS.has, hdir],
            fun hne => absurd heq hne⟩
        · exact ⟨o, n, rfl, rfl, FS.rename_spec fs fs1 o n h⟩

/-- C8, counterexample to the claim as stated.  The file `/w/done/a.txt` is
already in the directory of processed files `/w/done`; with `post_process=1`
the move succeeds (the file is renamed onto itself) and the source path
still exists afterwards. -/
theorem handlePostProcessing_move_onto_itself :
    moveConfig.PostProcessAction = 1 ∧
    (handlePostProcessing quietEnv "/w/done/a.txt".toList moveConfig
      { fs := sampleFS, executed := [] }).2 = none ∧
    FS.has (handlePostProcessing quietEnv "/w/done/a.txt".toList moveConfig
      { fs := sampleFS, executed := [] }).1.fs "/w/done/a.txt".toList = true := by
  decide

/-- A move between different paths, evaluated: `/w/in/b.txt` ends up at
`/w/done/b.txt` and is gone from `/w/in`. -/
theorem handlePostProcessing_move_example :
    (handlePostProcessing quietEnv "/w/in/b.txt".toList moveConfig
      { fs := sampleFS, executed := [] }).2 = none ∧
    FS.has (handlePostProcessing quietEnv "/w/in/b.txt".toList moveConfig
      { fs := sampleFS, executed := [] }).1.fs "/w/done/b.txt".toList = true ∧
    FS.has (handlePostProcessing quietEnv "/w/in/b.txt".toList moveConfig
      { fs := sampleFS, executed := [] }).1.fs "/w/in/b.txt".toList = false := by
  decide

/-- A delete, evaluated: `/w/in/b.txt` is gone afterwards and the rest of
the filesystem is as before. -/
theorem handlePostProcessing_delete_example :
    handlePostProcessing quietEnv "/w/in/b.txt".toList deleteConfig
        { fs := sampleFS, executed := [] }
      = ({ fs := [ ("/w".toList, Node.dir), ("/w/in".toList, Node.dir),
                   ("/w/done".toList, Node.dir), ("/w/done/a.txt".toList, Node.file) ],
           executed := [] }, none) := by
  rfl

/-- A move into a directory that does not exist yet, evaluated: `/w/out` and
`/w/out/x` are created and `/w/in/b.txt` ends up at `/w/out/x/b.txt`. -/
theorem handlePostProcessing_move_creates_directories :
    handlePostProcessing quietEnv "/w/in/b.txt".toList
        { moveConfig with ProcessedPath := "/w/out/x".toList }
        { fs := sampleFS, executed := [] }
      = ({ fs := [ ("/w".toList, Node.dir), ("/w/in".toList, Node.dir),
                   ("/w/done".toList, Node.dir), ("/w/done/a.txt".toList, Node.file),
                   ("/w/out".toList, Node.dir), ("/w/out/x".toList, Node.dir),
                   ("/w/out/x/b.txt".toList, Node.file) ],
           executed := [] }, none) := by
  rfl

/-- Paths are followed as written, evaluated: a delete through the missing
directory `/w/nope`, or of the file with a trailing separator, fails and
leaves the filesystem as it is, although the cleaned path names the file; a
move whose directory of processed files runs into the file `/w/done/a.txt`
fails in `os.MkdirAll`. -/
theorem handlePostProcessing_paths_as_written :
    handlePostProcessing quietEnv "/w/nope/../in/b.txt".toList deleteConfig
        { fs := sampleFS, executed := [] }
      = ({ fs := sampleFS, executed := [] }, some Err.deletingFile) ∧
    handlePostProcessing quietEnv "/w/in/b.txt/".toList deleteConfig
        { fs := sampleFS, executed := [] }
      = ({ fs := sampleFS, executed := [] }, some Err.deletingFile) ∧
    Filepath.clean "/w/nope/../in/b.txt".toList = "/w/in/b.txt".toList ∧
    handlePostProcessing quietEnv "/w/in/b.txt".toList
        { moveConfig with ProcessedPath := "/w/done/a.txt/y".toList }
        { fs := sampleFS, executed := [] }
      = ({ fs := sampleFS, executed := [] },
          some (Err.creatingCompletionDir "/w/done/a.txt/y".toList)) := by
  exact ⟨rfl, rfl, rfl, rfl⟩

/-- After a successful move the file that was at the source is at
`processed_path` joined with the base name of the source, and the source is
vacated unless it is that very path. -/
theorem moveFileToCompletionDir_ok (env : Env) (filePath : Str) (config : Config)
    (w w1 : World) (h : moveFileToCompletionDir env filePath config w = (w1, none)) :
    ∃ src dst fs1, osMkdirAll env.getwd w.fs config.ProcessedPath = (fs1, true) ∧
      resolvePath env.getwd fs1 filePath = some src ∧
      Filepath.abs env.getwd
        (Filepath.join config.ProcessedPath (Filepath.base filePath)) = some dst ∧
      FS.has w1.fs dst = true ∧
      (FS.has w.fs src = true → FS.node w1.fs dst = FS.node w.fs src) ∧
      (src ≠ dst → FS.has w1.fs src = false) := by
  simp only [moveFileToCompletionDir] at h
  cases habs : Filepath.abs env.getwd
      (Filepath.join config.ProcessedPath (Filepath.base filePath)) with
  | none => simp [habs] at h
  | some dst =>
    simp only [habs] at h
    cases hmk : osMkdirAll env.getwd w.fs config.ProcessedPath with
    | mk fs1 ok =>
      cases ok with
      | false => simp [hmk] at h
      | true =>
        simp only [hmk] at h
        cases hrn : osRename env.getwd fs1 filePath dst with
        | none => simp [hrn] at h
        | some fs2 =>
          simp only [hrn, Prod.mk.injEq, and_true] at h
          subst h
          obtain ⟨o, n, ho, hn, hnode, hhas, hgone⟩ := osRename_spec env.getwd fs1 fs2 _ _ hrn
          have hnd : n = dst := resolvePath_abs env.getwd env.getwd_abs fs1 _ dst n habs hn
          subst hnd
          refine ⟨o, n, fs1, rfl, ho, rfl, hhas, fun hex => ?_, hgone⟩
          rw [hnode]
          have hfs1 : fs1 = (osMkdirAll env.getwd w.fs config.ProcessedPath).1 := by rw [hmk]
          rw [hfs1]
          apply osMkdirAll_node
          intro hnone
          simp [FS.has, hnone] at hex

/-- C8, amended.  With `post_process=1` and a successful move, the directory
of processed files has been created, and the file the source path led to
exists afterwards at `processed_path` joined with the base name of the
source path, and nothing exists at the source unless that is the very path
the file was moved to; with `post_process=-1` and a successful delete
nothing exists at the source path; with `post_process=0` the world is
unchanged and the result is success; a failure to make the destination
absolute, to create the directory, to move or to delete is returned as the
error, and the filesystem is then as the last successful step left it. -/
theorem handlePostProcessing_spec (env : Env) (filePath : Str) (config : Config) (w : World) :
    (config.PostProcessAction = 1 → ∀ w1,
      handlePostProcessing env filePath config w = (w1, none) →
      ∃ src dst fs1, osMkdirAll env.getwd w.fs config.ProcessedPath = (fs1, true) ∧
        resolvePath env.getwd fs1 filePath = some src ∧
        Filepath.abs env.getwd
          (Filepath.join config.ProcessedPath (Filepath.base filePath)) = some dst ∧
        FS.has w1.fs dst = true ∧
        (FS.has w.fs src = true → FS.node w1.fs dst = FS.node w.fs src) ∧
        (src ≠ dst → FS.has w1.fs src = false)) ∧
    (config.PostProcessAction = -1 → ∀ w1,
      handlePostProcessing env filePath config w = (w1, none) →
      ∃ src, resolvePath env.getwd w.fs filePath = some src ∧ FS.has w1.fs src = false) ∧
    (config.PostProcessAction = 0 →
      handlePostProcessing env filePath config w = (w, none)) ∧
    (config.PostProcessAction = 1 →
      (Filepath.abs env.getwd
          (Filepath.join config.ProcessedPath (Filepath.base filePath)) = none →
        handlePostProcessing env filePath config w
          = (w, some (Err.absDestination
              (Filepath.join config.ProcessedPath (Filepath.base filePath))))) ∧
      (∀ dst fs1,
        Filepath.abs env.getwd
          (Filepath.join config.ProcessedPath (Filepath.base filePath)) = some dst →
        osMkdirAll env.getwd w.fs config.ProcessedPath = (fs1, false) →
        handlePostProcessing env filePath config w
          = ({ w with fs := fs1 }, some (Err.creatingCompletionDir config.ProcessedPath))) ∧
      (∀ fs1, osMkdirAll env.getwd w.fs config.ProcessedPath = (fs1, false) →
        ∃ e, (handlePostProcessing env filePath config w).2 = some e) ∧
      (∀ dst fs1,
        Filepath.abs env.getwd
          (Filepath.join config.ProcessedPath (Filepath.base filePath)) = some dst →
        osMkdirAll env.getwd w.fs config.ProcessedPath = (fs1, true) →
        osRename env.getwd fs1 filePath dst = none →
        handlePostProcessing env filePath config w
          = ({ w with fs := fs1 }, some Err.movingFile))) ∧
    (config.PostProcessAction = -1 →
      osRemove env.getwd w.fs filePath = none →
      handlePostProcessing env filePath config w = (w, some Err.deletingFile)) := by
  refine ⟨?_, ?_, ?_, ?_, ?_⟩
  · intro hact w1 h
    have hm : handlePostProcessing env filePath config w
        = moveFileToCompletionDir env filePath config w := by
      simp [handlePostProcessing, hact, PostProcessActionDoNothing, PostProcessActionMove]
    rw [hm] at h
    exact moveFileToCompletionDir_ok env filePath config w w1 h
  · intro hact w1 h
    simp only [handlePostProcessing, hact, PostProcessActionDoNothing, PostProcessActionMove,
      PostProcessActionDelete, deleteFile] at h
    simp only [show (-1 : Int) ≠ 0 by decide, show (-1 : Int) ≠ 1 by decide, if_false,
      if_true] at h
    cases hrm : osRemove env.getwd w.fs filePath with
    | none => simp [hrm] at h
    | some fs1 =>
      simp only [hrm, Prod.mk.injEq, and_true] at h
      subst h
      unfold osRemove at hrm
      split at hrm
      · cases hrm
      · cases hsrc : resolvePath env.getwd w.fs filePath with
        | none => simp [hsrc] at hrm
        | some src =>
          simp only [hsrc] at hrm
          exact ⟨src, rfl, FS.remove_spec w.fs fs1 src hrm⟩
  · intro hact
    simp [handlePostProcessing, hact, PostProcessActionDoNothing]
  · intro hact
    have hm : handlePostProcessing env filePath config w
        = moveFileToCompletionDir env filePath config w := by
      simp [handlePostProcessing, hact, PostProcessActionDoNothing, PostProcessActionMove]
    rw [hm]
    refine ⟨fun habs => ?_, fun dst fs1 habs hmk => ?_, fun fs1 hmk => ?_,
      fun dst fs1 habs hmk hrn => ?_⟩
    · simp [moveFileToCompletionDir, habs]
    · simp [moveFileToCompletionDir, habs, hmk]
    · cases habs : Filepath.abs env.getwd
          (Filepath.join config.ProcessedPath (Filepath.base filePath)) with
      | none =>
        exact ⟨Err.absDestination (Filepath.join config.ProcessedPath (Filepath.base filePath)),
          by simp [moveFileToCompletionDir, habs]⟩
      | some dst =>
        exact ⟨Err.creatingCompletionDir config.ProcessedPath,
          by simp [moveFileToCompletionDir, habs, hmk]⟩
    · simp [moveFileToCompletionDir, habs, hmk, hrn]
  · intro hact hrm
    simp [handlePostProcessing, hact, PostProcessActionDoNothing, PostProcessActionMove,
      PostProcessActionDelete, deleteFile, hrm]

/-! ## Invalid `post_process` values -/

/-- C9, counterexample to the claim as stated.  A configuration file that
decodes to `post_process: 2` is not loaded: `loadConfig` returns the error
"invalid post_process value: 2". -/
theorem loadConfig_rejects_invalid_post_process :
    badPostProcessFile.unmarshal "post_process: 2".toList defaultConfig
      = some badPostProcessConfig ∧
    loadConfig badPostProcessFile = Except.error (LoadErr.invalidPostProcess 2) ∧
    ¬ ∃ config, loadConfig badPostProcessFile = Except.ok config := by
  refine ⟨rfl, rfl, ?_⟩
  rintro ⟨config, h⟩
  have h2 : loadConfig badPostProcessFile = Except.error (LoadErr.invalidPostProcess 2) := rfl
  rw [h2] at h
  cases h

/-- Every configuration `loadConfig` returns carries a valid `post_process`. -/
theorem loadConfig_post_process_valid (src : ConfigFile) (config : Config)
    (h : loadConfig src = Except.ok config) :
    config.PostProcessAction = 0 ∨ config.PostProcessAction = 1 ∨
      config.PostProcessAction = -1 := by
  unfold loadConfig at h
  cases hr : src.read with
  | notExist =>
    simp only [hr] at h
    split at h
    · cases h
    · split at h
      · cases h
      · cases h
        exact Or.inl rfl
  | failed =>
    simp only [hr] at h
    cases h
  | data bytes =>
    simp only [hr] at h
    cases hu : src.unmarshal bytes defaultConfig with
    | none =>
      simp only [hu] at h
      cases h
    | some c =>
      simp only [hu, validateConfig, PostProcessActionDoNothing, PostProcessActionMove,
        PostProcessActionDelete] at h
      split at h
      · cases h
      · rename_i hv
        cases h
        by_cases h0 : config.PostProcessAction = 0
        · exact Or.inl h0
        · by_cases h1 : config.PostProcessAction = 1
          · exact Or.inr (Or.inl h1)
          · by_cases h2 : config.PostProcessAction = -1
            · exact Or.inr (Or.inr h2)
            · exact absurd ⟨h0, h1, h2⟩ hv

/-- C9, amended.  For a `post_process` value other than 0, 1 and -1,
`handlePostProcessing` returns an error and leaves the world as it is
(nothing moved, nothing deleted); the validation step of `loadConfig` rejects
the value as well, so loading a file that decodes to such a configuration
fails. -/
theorem invalid_post_process_rejected (env : Env) (filePath : Str) (config : Config)
    (w : World)
    (h0 : config.PostProcessAction ≠ 0) (h1 : config.PostProcessAction ≠ 1)
    (h2 : config.PostProcessAction ≠ -1) :
    handlePostProcessing env filePath config w
      = (w, some (Err.invalidPostProcess config.PostProcessAction)) ∧
    validateConfig config
      = Except.error (LoadErr.invalidPostProcess config.PostProcessAction) ∧
    (∀ src bytes, src.read = ReadResult.data bytes →
      src.unmarshal bytes defaultConfig = some config →
      loadConfig src = Except.error (LoadErr.invalidPostProcess config.PostProcessAction)) := by
  have hval : validateConfig config
      = Except.error (LoadErr.invalidPostProcess config.PostProcessAction) := by
    simp [validateConfig, PostProcessActionDoNothing, PostProcessActionMove,
      PostProcessActionDelete, h0, h1, h2]
  refine ⟨?_, hval, ?_⟩
  · simp [handlePostProcessing, PostProcessActionDoNothing, PostProcessActionMove,
      PostProcessActionDelete, h0, h1, h2]
  · intro src bytes hr hu
    simp [loadConfig, hr, hu, hval]

/-- Witness of C9 at `post_process: 2`. -/
theorem invalid_post_process_rejected_witness :
    badPostProcessConfig.PostProcessAction ≠ 0 ∧
    badPostProcessConfig.PostProcessAction ≠ 1 ∧
    badPostProcessConfig.PostProcessAction ≠ -1 ∧
    handlePostProcessing quietEnv "/w/in/b.txt".toList badPostProcessConfig
        { fs := sampleFS, executed := [] }
      = ({ fs := sampleFS, executed := [] },
          some (Err.invalidPostProcess badPostProcessConfig.PostProcessAction)) ∧
    validateConfig badPostProcessConfig
      = Except.error (LoadErr.invalidPostProcess badPostProcessConfig.PostProcessAction) :=
  ⟨by decide, by decide, by decide,
    (invalid_post_process_rejected quietEnv "/w/in/b.txt".toList badPostProcessConfig
      { fs := sampleFS, executed := [] } (by decide) (by decide) (by decide)).1,
    (invalid_post_process_rejected quietEnv "/w/in/b.txt".toList badPostProcessConfig
      { fs := sampleFS, executed := [] } (by decide) (by decide) (by decide)).2.1⟩

/-! ## Reload of the configuration -/

/-- A successful reload replaces the live configuration and leaves the
ticker alone, whatever the old and the new reload interval are. -/
theorem reloadStep_keeps_ticker (st : ReloadState) (newConfig : Config) :
    ∃ st1, reloadStep st (Except.ok newConfig) = Except.ok st1 ∧
      st1.config = newConfig ∧ st1.tickerInterval = st.tickerInterval ∧
      st1.tickersCreated = st.tickersCreated := by
  simp [reloadStep]

/-- C10, at the input where the code departs from it.  The loop is started
with `reload_config: 50` and the first reload brings `reload_config: 100`:
the live configuration then says 100, but the ticker is still the one
created at the start, with an interval of 50 ms.  The comparison that should
detect the change is made after the live configuration has been overwritten
with the new one, so it never sees a difference. -/
theorem periodicConfigReload_keeps_old_interval :
    ∃ st, periodicConfigReload reload50 [Except.ok reload100] = Except.ok st ∧
      st.config.ReloadConfig = 100 ∧
      st.tickerInterval = 50 * Millisecond ∧
      st.tickersCreated = 1 := by
  refine ⟨_, rfl, ?_, ?_, ?_⟩ <;> decide

/-! ## Task descriptors -/

theorem Strings.hasPrefix_append_cases (y z t : Str)
    (h : Strings.hasPrefix (y ++ z) t = true) :
    Strings.hasPrefix y t = true ∨ ∃ z0 zs, z = z0 :: zs ∧ z0 ∈ t := by
  induction y generalizing t with
  | nil =>
    cases t with
    | nil => exact Or.inl rfl
    | cons d t =>
      cases z with
      | nil => simp [Strings.hasPrefix] at h
      | cons z0 zs =>
        simp only [List.nil_append, Strings.hasPrefix, Bool.and_eq_true, beq_iff_eq] at h
        exact Or.inr ⟨z0, zs, rfl, by simp [h.1]⟩
  | cons c y ih =>
    cases t with
    | nil => exact Or.inl rfl
    | cons d t =>
      simp only [List.cons_append, Strings.hasPrefix, Bool.and_eq_true, beq_iff_eq] at h ⊢
      rcases ih t h.2 with h1 | ⟨z0, zs, hz, hm⟩
      · exact Or.inl ⟨h.1, h1⟩
      · exact Or.inr ⟨z0, zs, hz, List.mem_cons_of_mem _ hm⟩

/-- A separator whose first character does not occur again in it cannot
begin in `y` and end in a text that starts with that separator. -/
theorem Strings.hasPrefix_no_straddle (q : Char) (tail y rest : Str) (hq : q ∉ tail)
    (h : Strings.hasPrefix (y ++ (q :: rest)) (q :: tail) = true) (hy : y ≠ []) :
    Strings.hasPrefix y (q :: tail) = true := by
  cases y with
  | nil => exact absurd rfl hy
  | cons c y =>
    simp only [List.cons_append, Strings.hasPrefix, Bool.and_eq_true, beq_iff_eq] at h ⊢
    rcases Strings.hasPrefix_append_cases y (q :: rest) tail h.2 with h1 | ⟨z0, zs, hz, hm⟩
    · exact ⟨h.1, h1⟩
    · simp only [List.cons.injEq] at hz
      rw [← hz.1] at hm
      exact absurd hm hq

theorem Strings.splitScan_skip (sep a b cur : Str) :
    Strings.splitScan sep a.length (a ++ b) cur = Strings.splitScan sep 0 b cur := by
  induction a with
  | nil => rfl
  | cons c a ih => simpa [Strings.splitScan] using ih

theorem Strings.splitScan_plain (q : Char) (tail k cur : Str) (hk : q ∉ k) :
    Strings.splitScan (q :: tail) 0 k cur = [cur.reverse ++ k] := by
  induction k generalizing cur with
  | nil => simp [Strings.splitScan]
  | cons c k ih =>
    simp only [List.mem_cons, not_or] at hk
    have hc : c ≠ q := fun h => hk.1 h.symm
    simp [Strings.splitScan, Strings.hasPrefix, hc, ih _ hk.2]

theorem Strings.splitScan_length_pos (sep : Str) (n : Nat) (s cur : Str) :
    1 ≤ (Strings.splitScan sep n s cur).length := by
  induction s generalizing n cur with
  | nil => simp [Strings.splitScan]
  | cons c s ih =>
    cases n with
    | zero =>
      simp only [Strings.splitScan]
      split
      · simp
      · exact ih 0 _
    | succ n =>
      simp only [Strings.splitScan]
      exact ih n cur

/-- A text without the separator, followed by the separator and a text
without its first character, splits into exactly these two. -/
theorem Strings.splitScan_roundtrip (q : Char) (tail p k cur : Str) (hq : q ∉ tail)
    (hk : q ∉ k) (hp : Strings.contains p (q :: tail) = false) :
    Strings.splitScan (q :: tail) 0 (p ++ (q :: tail) ++ k) cur = [cur.reverse ++ p, k] := by
  induction p generalizing cur with
  | nil =>
    have hpre : Strings.hasPrefix (q :: (tail ++ k)) (q :: tail) = true :=
      (Strings.hasPrefix_iff _ _).mpr ⟨k, rfl⟩
    have hskip := Strings.splitScan_skip (q :: tail) tail k []
    have hplain := Strings.splitScan_plain q tail k [] hk
    show Strings.splitScan (q :: tail) 0 (q :: (tail ++ k)) cur = [cur.reverse ++ [], k]
    simp only [Strings.splitScan, List.length_cons, Nat.add_sub_cancel]
    rw [if_pos hpre, hskip, hplain]
    simp
  | cons c p ih =>
    simp only [Strings.contains, Bool.or_eq_false_iff] at hp
    have hno : Strings.hasPrefix ((c :: p) ++ (q :: (tail ++ k))) (q :: tail) = false := by
      cases hh : Strings.hasPrefix ((c :: p) ++ (q :: (tail ++ k))) (q :: tail) with
      | false => rfl
      | true =>
        have := Strings.hasPrefix_no_straddle q tail (c :: p) (tail ++ k) hq hh (by simp)
        rw [this] at hp
        exact absurd hp.1 (by simp)
    have hshape : (c :: p) ++ (q :: tail) ++ k = c :: (p ++ (q :: tail) ++ k) := by simp
    have hshape2 : c :: (p ++ (q :: tail) ++ k) = (c :: p) ++ (q :: (tail ++ k)) := by simp
    rw [hshape]
    simp only [Strings.splitScan]
    rw [hshape2, hno]
    simp only [Bool.false_eq_true, if_false]
    have := ih (c :: cur) hp.2
    simpa using this

theorem Strings.splitScan_two_of_contains (sep s cur : Str) (hsep : sep ≠ [])
    (h : Strings.contains s sep = true) :
    2 ≤ (Strings.splitScan sep 0 s cur).length := by
  induction s generalizing cur with
  | nil =>
    simp only [Strings.contains, List.isEmpty_iff] at h
    exact absurd h hsep
  | cons c s ih =>
    simp only [Strings.splitScan]
    by_cases hh : Strings.hasPrefix (c :: s) sep = true
    · simp only [hh, if_true, List.length_cons]
      have := Strings.splitScan_length_pos sep (sep.length - 1) s []
      omega
    · simp only [hh, if_false]
      simp only [Strings.contains, Bool.or_eq_true] at h
      rcases h with h | h
      · exact absurd h hh
      · exact ih _ h

/-- A text that contains the separator, followed by the separator and more,
splits into at least three parts. -/
theorem Strings.splitScan_three (q : Char) (tail p k cur : Str) (hq : q ∉ tail)
    (hp : Strings.contains p (q :: tail) = true) :
    3 ≤ (Strings.splitScan (q :: tail) 0 (p ++ (q :: tail) ++ k) cur).length := by
  induction p generalizing cur with
  | nil => simp [Strings.contains] at hp
  | cons c p ih =>
    have hshape : (c :: p) ++ (q :: tail) ++ k = c :: (p ++ (q :: tail) ++ k) := by simp
    have hshape2 : c :: (p ++ (q :: tail) ++ k) = (c :: p) ++ (q :: (tail ++ k)) := by simp
    rw [hshape]
    simp only [Strings.splitScan]
    by_cases hh : Strings.hasPrefix (c :: (p ++ (q :: tail) ++ k)) (q :: tail) = true
    · simp only [hh, if_true, List.length_cons, Nat.add_sub_cancel]
      rw [hshape2] at hh
      have hin := Strings.hasPrefix_no_straddle q tail (c :: p) (tail ++ k) hq hh (by simp)
      obtain ⟨post, hpost⟩ := (Strings.hasPrefix_iff _ _).mp hin
      simp only [List.cons_append, List.cons.injEq] at hpost
      have hrest : p ++ (q :: tail) ++ k = tail ++ (post ++ (q :: tail) ++ k) := by
        rw [hpost.2]
        simp
      rw [hrest, Strings.splitScan_skip]
      have hc : Strings.contains (post ++ (q :: tail) ++ k) (q :: tail) = true :=
        (Strings.contains_iff _ _).mpr ⟨post, k, rfl⟩
      have := Strings.splitScan_two_of_contains (q :: tail) _ [] (by simp) hc
      omega
    · simp only [hh, if_false]
      have hnot : Strings.hasPrefix (c :: p) (q :: tail) = false := by
        cases h1 : Strings.hasPrefix (c :: p) (q :: tail) with
        | false => rfl
        | true =>
          exfalso
          apply hh
          obtain ⟨post, hpost⟩ := (Strings.hasPrefix_iff _ _).mp h1
          exact (Strings.hasPrefix_iff _ _).mpr ⟨post ++ (q :: tail) ++ k, by
            rw [← List.cons_append, ← List.cons_append, hpost]; simp⟩
      simp only [Strings.contains, hnot, Bool.false_or] at hp
      exact ih _ hp

theorem parseEventType_of_three (s : Str)
    (h : 3 ≤ (Strings.split s eventMarker).length) : parseEventType s = (s, []) := by
  unfold parseEventType
  split
  · rename_i a b hab
    rw [hab] at h
    simp at h
  · rfl

theorem processFile_empty_kind (env : Env) (filePath : Str) (config : Config) (w : World) :
    processFile env filePath config [] w = (w, some (Err.unknownEventType [])) := by
  simp [processFile, selectCommand, CreateEvent, RenameEvent, WriteEvent, RemoveEvent]

/-- The task descriptors of some paths, parsed: a plain path round-trips, a
path that holds the marker itself does not. -/
theorem parseEventType_examples :
    parseEventType "/w/a.txt?event=create".toList = ("/w/a.txt".toList, CreateEvent) ∧
    parseEventType "/w/b?c?event=remove".toList = ("/w/b?c".toList, RemoveEvent) ∧
    parseEventType "/w/x?event=y?event=write".toList
      = ("/w/x?event=y?event=write".toList, []) ∧
    parseEventType "/w/a.txt".toList = ("/w/a.txt".toList, []) := by
  decide

/-- C14.  For a path `p` and an event kind `k` among create, rename, write
and remove, `parseEventType` applied to `p ++ "?event=" ++ k` returns `(p, k)`
exactly when `p` does not contain `?event=`; when `p` contains it, the whole
string comes back with an empty event kind, and `processFile` on that result
returns the error for an unknown event type and leaves the world, the
commands run included, as it is. -/
theorem parseEventType_roundtrip (p k : Str)
    (hk : k = CreateEvent ∨ k = RenameEvent ∨ k = WriteEvent ∨ k = RemoveEvent) :
    (parseEventType (p ++ eventMarker ++ k) = (p, k) ↔
      ¬ ∃ pre post, p = pre ++ eventMarker ++ post) ∧
    ((∃ pre post, p = pre ++ eventMarker ++ post) →
      parseEventType (p ++ eventMarker ++ k) = (p ++ eventMarker ++ k, []) ∧
      ∀ (env : Env) (config : Config) (w : World),
        processFile env (parseEventType (p ++ eventMarker ++ k)).1 config
          (parseEventType (p ++ eventMarker ++ k)).2 w
          = (w, some (Err.unknownEventType []))) := by
  have hq : '?' ∉ "event=".toList := by decide
  have hkq : '?' ∉ k := by
    rcases hk with rfl | rfl | rfl | rfl <;> decide
  have hkne : k ≠ [] := by
    rcases hk with rfl | rfl | rfl | rfl <;> decide
  have hmarker : eventMarker = '?' :: "event=".toList := rfl
  have hyes : (∃ pre post, p = pre ++ eventMarker ++ post) →
      parseEventType (p ++ eventMarker ++ k) = (p ++ eventMarker ++ k, []) := by
    intro hc
    apply parseEventType_of_three
    have hc2 : Strings.contains p ('?' :: "event=".toList) = true :=
      (Strings.contains_iff _ _).mpr hc
    exact Strings.splitScan_three '?' "event=".toList p k [] hq hc2
  refine ⟨⟨?_, ?_⟩, ?_⟩
  · intro h hc
    rw [hyes hc] at h
    have := congrArg Prod.snd h
    exact hkne this.symm
  · intro hc
    have hc2 : Strings.contains p ('?' :: "event=".toList) = false := by
      cases hcc : Strings.contains p ('?' :: "event=".toList) with
      | false => rfl
      | true => exact absurd ((Strings.contains_iff _ _).mp hcc) hc
    have hs := Strings.splitScan_roundtrip '?' "event=".toList p k [] hq hkq hc2
    unfold parseEventType Strings.split
    rw [hmarker, hs]
    simp
  · intro hc
    refine ⟨hyes hc, fun env config w => ?_⟩
    rw [hyes hc]
    exact processFile_empty_kind env _ config w

/-- Witness of C14 at the path `/w/a.txt` and the kind create. -/
theorem parseEventType_roundtrip_witness :
    (CreateEvent = CreateEvent ∨ CreateEvent = RenameEvent ∨ CreateEvent = WriteEvent ∨
      CreateEvent = RemoveEvent) ∧
    (parseEventType ("/w/a.txt".toList ++ eventMarker ++ CreateEvent)
        = ("/w/a.txt".toList, CreateEvent) ↔
      ¬ ∃ pre post, "/w/a.txt".toList = pre ++ eventMarker ++ post) :=
  ⟨Or.inl rfl, (parseEventType_roundtrip "/w/a.txt".toList CreateEvent (Or.inl rfl)).1⟩

/-! ## Tasks without a command -/

/-- Tasks without a command, evaluated: with `post_process=-1` the file
`/w/in/b.txt` is deleted, with `post_process=1` it is moved to `/w/done`, and
in both cases no command is run. -/
theorem tasks_without_command_evaluated :
    processFile quietEnv "/w/in/b.txt".toList noCommandDeleteConfig CreateEvent
        { fs := sampleFS, executed := [] }
      = ({ fs := [ ("/w".toList, Node.dir), ("/w/in".toList, Node.dir),
                   ("/w/done".toList, Node.dir), ("/w/done/a.txt".toList, Node.file) ],
           executed := [] }, none) ∧
    processFile quietEnv "/w/in/b.txt".toList noCommandMoveConfig WriteEvent
        { fs := sampleFS, executed := [] }
      = ({ fs := [ ("/w".toList, Node.dir), ("/w/in".toList, Node.dir),
                   ("/w/done".toList, Node.dir), ("/w/done/a.txt".toList, Node.file),
                   ("/w/done/b.txt".toList, Node.file) ],
           executed := [] }, none) := by
  exact ⟨rfl, rfl⟩

/-! ## The bootstrap scan -/

/-- Where the scan and the handler agree: for a regular file given by its
absolute path, with a create command configured, the walk function leaves
the state `handleCreateEvent` leaves. -/
theorem walkFn_regular_with_command (u : CaseTables) (getwd : Option Str) (config : Config) (st : State)
    (e : WalkEntry) (hreg : e.info = StatResult.regular)
    (hcmd : config.OnCreateRun.elems ≠ [])
    (habs : Filepath.abs getwd e.path = some e.path) :
    (walkFn u getwd config st e).1
      = handleCreateEvent u getwd StatResult.regular e.now e.path config st := by
  have hlen : config.OnCreateRun.elems.length > 0 := List.length_pos.mpr hcmd
  unfold walkFn handleCreateEvent
  simp only [hreg]
  by_cases hex : isExcludedPath u getwd e.path config = true
  · simp [hex]
  · by_cases hal : isAllowedFileType u e.path config.FileTypes.elems = true
    · simp [hex, hal, habs, hlen]
    · simp [hex, hal]

/-- C12, at inputs where the code departs from it.  With no create command
configured, the scan of a directory holding the regular file `/w/a.txt`
sends the task `/w/a.txt?event=create`, while `handleCreateEvent` on the same
path in the same state sends nothing: `processExistingFiles` does not ask
whether a create command is configured.  With a create command configured,
the scan also sends a task for the named pipe `/w/pipe`, which
`handleCreateEvent` passes over: the scan tests "not a directory" where the
handler tests "regular file".  This holds whatever the case tables are. -/
theorem processExistingFiles_sends_where_handler_does_not (u : CaseTables) :
    noCommandConfig.OnCreateRun.elems = [] ∧
    (processExistingFiles u (some "/".toList) noCommandConfig emptyState oneFileWalk).taskQueue
      = ["/w/a.txt?event=create".toList] ∧
    (handleCreateEvent u (some "/".toList) StatResult.regular 0 "/w/a.txt".toList
      noCommandConfig emptyState).taskQueue = [] ∧
    (processExistingFiles u (some "/".toList) catConfig emptyState pipeWalk).taskQueue
      = ["/w/pipe?event=create".toList] ∧
    (handleCreateEvent u (some "/".toList) StatResult.other 0 "/w/pipe".toList
      catConfig emptyState).taskQueue = [] :=
  ⟨rfl, rfl, rfl, rfl, rfl⟩

/-! ## Change lines of the reload loop -/

theorem foldl_update_of_not_mem (l : List (Str × FieldVal)) (m : Snapshot) (k : Str)
    (hk : k ∉ l.map Prod.fst) :
    (l.foldl (fun m e => fun k => if k = e.1 then some e.2 else m k) m) k = m k := by
  induction l generalizing m with
  | nil => rfl
  | cons x rest ih =>
    simp only [List.map_cons, List.mem_cons, not_or] at hk
    simp only [List.foldl_cons]
    rw [ih _ hk.2]
    simp [hk.1]

theorem foldl_update_of_mem (l : List (Str × FieldVal)) (m : Snapshot) (k : Str)
    (v : FieldVal) (hnd : (l.map Prod.fst).Nodup) (hmem : (k, v) ∈ l) :
    (l.foldl (fun m e => fun k => if k = e.1 then some e.2 else m k) m) k = some v := by
  induction l generalizing m with
  | nil => simp at hmem
  | cons x rest ih =>
    simp only [List.map_cons, List.nodup_cons] at hnd
    simp only [List.foldl_cons]
    rcases List.mem_cons.mp hmem with h | h
    · subst h
      rw [foldl_update_of_not_mem rest _ _ hnd.1]
      simp
    · exact ih _ hnd.2 h

/-- The comparison loop, field by field: when the snapshot holds the old
value of every field, the lines logged are those of the fields whose value
differs, and the snapshot afterwards holds the new values. -/
theorem diffFields_spec (l : List (Str × FieldVal × FieldVal)) (snap : Snapshot)
    (log : List ConfigChange)
    (hnd : (l.map (fun t => t.1)).Nodup)
    (hsnap : ∀ t ∈ l, snap t.1 = some t.2.1) :
    (diffFields (l.map (fun t => (t.1, t.2.2))) (snap, log)).2
      = log ++ l.filterMap (fun t => if t.2.1 ≠ t.2.2 then
          some { field := t.1, oldValue := some t.2.1, newValue := t.2.2 } else none) ∧
    (∀ t ∈ l, (diffFields (l.map (fun t => (t.1, t.2.2))) (snap, log)).1 t.1 = some t.2.2) ∧
    (∀ k, k ∉ l.map (fun t => t.1) →
      (diffFields (l.map (fun t => (t.1, t.2.2))) (snap, log)).1 k = snap k) := by
  induction l generalizing snap log with
  | nil => simp [diffFields]
  | cons t rest ih =>
    obtain ⟨name, old, new⟩ := t
    simp only [List.map_cons, List.nodup_cons] at hnd
    have hhead : snap name = some old := hsnap (name, old, new) (List.mem_cons_self _ _)
    have hrest : ∀ t ∈ rest, snap t.1 = some t.2.1 :=
      fun t ht => hsnap t (List.mem_cons_of_mem _ ht)
    have hne : ∀ t ∈ rest, t.1 ≠ name := by
      intro t ht heq
      exact hnd.1 (List.mem_map.mpr ⟨t, ht, heq⟩)
    by_cases hd : old = new
    · subst hd
      obtain ⟨h1, h2, h3⟩ := ih snap log hnd.2 hrest
      simp only [List.map_cons, diffFields, hhead, ne_eq, not_true_eq_false, if_false,
        List.filterMap_cons, List.mem_cons, forall_eq_or_imp]
      refine ⟨h1, ⟨?_, h2⟩, ?_⟩
      · rw [h3 name hnd.1, hhead]
      · intro k hk
        simp only [List.map_cons, List.mem_cons, not_or] at hk
        exact h3 k hk.2
    · have hd2 : some old ≠ some new := fun h => hd (Option.some.inj h)
      have hrest2 : ∀ t ∈ rest,
          (fun k => if k = name then some new else snap k) t.1 = some t.2.1 := by
        intro t ht
        simp [hne t ht, hrest t ht]
      obtain ⟨h1, h2, h3⟩ := ih (fun k => if k = name then some new else snap k)
        (log ++ [{ field := name, oldValue := some old, newValue := new }]) hnd.2 hrest2
      simp only [List.map_cons, diffFields, hhead, ne_eq, hd2, not_false_eq_true, if_true,
        hd, List.filterMap_cons, List.mem_cons, forall_eq_or_imp]
      refine ⟨by rw [h1]; simp, ⟨?_, h2⟩, ?_⟩
      · rw [h3 name hnd.1]
        simp
      · intro k hk
        simp only [List.map_cons, List.mem_cons, not_or] at hk
        rw [h3 k hk.2]
        simp [hk.1]

theorem configFields_keys (c d : Config) :
    (configFields c).map Prod.fst = (configFields d).map Prod.fst := rfl

theorem configFields_keys_nodup (c : Config) : ((configFields c).map Prod.fst).Nodup := by
  rw [configFields_keys c defaultConfig]
  decide

theorem snapshotOf_of_mem (c : Config) (k : Str) (v : FieldVal)
    (h : (k, v) ∈ configFields c) : snapshotOf c k = some v :=
  foldl_update_of_mem (configFields c) (fun _ => none) k v (configFields_keys_nodup c) h

theorem snapshotOf_of_not_mem (c : Config) (k : Str)
    (h : k ∉ (configFields c).map Prod.fst) : snapshotOf c k = none :=
  foldl_update_of_not_mem (configFields c) (fun _ => none) k h

/-- One successful reload against the snapshot of the configuration `prev`:
the lines added are those of the fields in which `next` differs from `prev`,
and the snapshot becomes that of `next`. -/
theorem reloadStep_changes (st : ReloadState) (prev next : Config)
    (hsnap : ∀ k, st.oldConfigValues k = snapshotOf prev k) :
    ∃ st1, reloadStep st (Except.ok next) = Except.ok st1 ∧ st1.config = next ∧
      st1.changes = st.changes ++ fieldChanges prev next ∧
      ∀ k, st1.oldConfigValues k = snapshotOf next k := by
  have hmapNew : (List.zipWith (fun a b => (a.1, a.2, b.2)) (configFields prev)
      (configFields next)).map (fun t => (t.1, t.2.2)) = configFields next := rfl
  have hmapOld : (List.zipWith (fun a b => (a.1, a.2, b.2)) (configFields prev)
      (configFields next)).map (fun t => (t.1, t.2.1)) = configFields prev := rfl
  have hmapKey : (List.zipWith (fun a b => (a.1, a.2, b.2)) (configFields prev)
      (configFields next)).map (fun t => t.1) = (configFields prev).map Prod.fst := rfl
  generalize hl : List.zipWith (fun a b => (a.1, a.2, b.2)) (configFields prev)
      (configFields next) = l at hmapNew hmapOld hmapKey
  have hnd : (l.map (fun t => t.1)).Nodup := by
    rw [hmapKey]
    exact configFields_keys_nodup prev
  have hold : ∀ t ∈ l, (t.1, t.2.1) ∈ configFields prev := by
    intro t ht
    rw [← hmapOld]
    exact List.mem_map.mpr ⟨t, ht, rfl⟩
  have hnew : ∀ t ∈ l, (t.1, t.2.2) ∈ configFields next := by
    intro t ht
    rw [← hmapNew]
    exact List.mem_map.mpr ⟨t, ht, rfl⟩
  have hs : ∀ t ∈ l, st.oldConfigValues t.1 = some t.2.1 := by
    intro t ht
    rw [hsnap, snapshotOf_of_mem prev _ _ (hold t ht)]
  obtain ⟨h1, h2, h3⟩ := diffFields_spec l st.oldConfigValues st.changes hnd hs
  rw [hmapNew] at h1 h2 h3
  refine ⟨{ config := next,
            oldConfigValues := (diffFields (configFields next)
              (st.oldConfigValues, st.changes)).1,
            tickerInterval := st.tickerInterval, tickersCreated := st.tickersCreated,
            changes := (diffFields (configFields next) (st.oldConfigValues, st.changes)).2 },
    by simp [reloadStep], rfl, ?_, ?_⟩
  · simp only [h1, fieldChanges, hl]
  · intro k
    show (diffFields (configFields next) (st.oldConfigValues, st.changes)).1 k = _
    by_cases hk : k ∈ l.map (fun t => t.1)
    · obtain ⟨t, ht, rfl⟩ := List.mem_map.mp hk
      rw [h2 t ht, snapshotOf_of_mem next _ _ (hnew t ht)]
    · rw [h3 k hk, hsnap, snapshotOf_of_not_mem prev k (by rw [← hmapKey]; exact hk),
        snapshotOf_of_not_mem next k (by
          rw [configFields_keys next prev, ← hmapKey]; exact hk)]

/-- Successive successful reloads against the snapshot of `prev`: the lines
logged are those the specification expects along the loads. -/
theorem reloadLoop_changes (nexts : List Config) (st : ReloadState) (prev : Config)
    (hsnap : ∀ k, st.oldConfigValues k = snapshotOf prev k) :
    ∃ st1, reloadLoop st (nexts.map Except.ok) = Except.ok st1 ∧
      st1.changes = st.changes ++ changesAlong prev nexts := by
  induction nexts generalizing st prev with
  | nil => exact ⟨st, rfl, by simp [changesAlong]⟩
  | cons next rest ih =>
    obtain ⟨st1, h1, _, h3, h4⟩ := reloadStep_changes st prev next hsnap
    obtain ⟨st2, h5, h6⟩ := ih st1 next h4
    refine ⟨st2, ?_, ?_⟩
    · simp only [List.map_cons, reloadLoop, h1, h5]
    · rw [h6, h3, changesAlong, List.append_assoc]

/-- The change lines from the start of the process: the loads are compared
with one another, the first one with the configuration as `setupWorkerPool`
left it, in which a `max_workers` value that is not positive has been
replaced by the number of processors. -/
theorem mainReload_changes (numCPU : Int) (loadedAtStartup : Config) (nexts : List Config)
    (hr : loadedAtStartup.ReloadConfig > 0)
    (hfit : loadedAtStartup.ReloadConfig ≤ 9223372036854) :
    ∃ st1, mainReload numCPU loadedAtStartup (nexts.map Except.ok) = some (Except.ok st1) ∧
      st1.changes = changesAlong (setupWorkerPool numCPU loadedAtStartup).1 nexts := by
  have hr2 : (setupWorkerPool numCPU loadedAtStartup).1.ReloadConfig > 0 := by
    unfold setupWorkerPool
    split <;> exact hr
  have hr3 : (setupWorkerPool numCPU loadedAtStartup).1.ReloadConfig ≤ 9223372036854 := by
    unfold setupWorkerPool
    split <;> exact hfit
  have hms : ¬ milliseconds (setupWorkerPool numCPU loadedAtStartup).1.ReloadConfig ≤ 0 := by
    rw [milliseconds_of_fits _ (by omega) hr3]
    simp only [Millisecond]
    omega
  obtain ⟨st1, h1, h2⟩ := reloadLoop_changes nexts
    { config := (setupWorkerPool numCPU loadedAtStartup).1,
      oldConfigValues := snapshotOf (setupWorkerPool numCPU loadedAtStartup).1,
      tickerInterval := milliseconds (setupWorkerPool numCPU loadedAtStartup).1.ReloadConfig,
      tickersCreated := 1, changes := [] }
    (setupWorkerPool numCPU loadedAtStartup).1 (fun _ => rfl)
  refine ⟨st1, ?_, by simpa using h2⟩
  simp only [mainReload, hr2, if_true, periodicConfigReload, hms, if_false, h1]

/-- A configuration loaded again unchanged gives no change line. -/
theorem fieldChanges_self (c : Config) : fieldChanges c c = [] := by
  simp [fieldChanges, configFields]

/-- With a positive `max_workers` at startup `setupWorkerPool` leaves the
configuration as loaded. -/
theorem setupWorkerPool_of_pos (numCPU : Int) (config : Config) (h : config.MaxWorkers > 0) :
    (setupWorkerPool numCPU config).1 = config := by
  have : ¬ config.MaxWorkers ≤ 0 := by omega
  simp [setupWorkerPool, this]

/-- The comparison tells a nil slice from a slice without elements, as
`reflect.DeepEqual` does: when `file_type` turns from the one into the other,
the reload logs a line for the field. -/
theorem mainReload_nil_to_empty_slice :
    ∃ st, mainReload 8 fourWorkersConfig
        [Except.ok { fourWorkersConfig with FileTypes := Slice.of [] }] = some (Except.ok st) ∧
      st.changes = [{ field := "FileTypes".toList, oldValue := some (FieldVal.strs Slice.nil),
                      newValue := FieldVal.strs (Slice.of []) }] :=
  ⟨_, rfl, by decide⟩

/-- C11, at the input where the code departs from it.  The configuration
file says `max_workers: 0` and `reload_config: 50` and never changes; the
machine has 8 processors.  The first reload logs the line
"MaxWorkers: 8 -> 0", where the specification expects no line, because the
snapshot the loop compares with is taken after `setupWorkerPool` has
replaced the value in the live configuration; a second reload logs nothing
more.  With `max_workers: 4` the same run logs nothing. -/
theorem mainReload_logs_change_for_unchanged_file :
    fieldChanges zeroWorkersConfig zeroWorkersConfig = [] ∧
    (∃ st, mainReload 8 zeroWorkersConfig [Except.ok zeroWorkersConfig]
        = some (Except.ok st) ∧
      st.changes = [{ field := "MaxWorkers".toList, oldValue := some (FieldVal.int 8),
                      newValue := FieldVal.int 0 }]) ∧
    (∃ st, mainReload 8 zeroWorkersConfig
        [Except.ok zeroWorkersConfig, Except.ok zeroWorkersConfig] = some (Except.ok st) ∧
      st.changes = [{ field := "MaxWorkers".toList, oldValue := some (FieldVal.int 8),
                      newValue := FieldVal.int 0 }]) ∧
    (∃ st, mainReload 8 fourWorkersConfig [Except.ok fourWorkersConfig]
        = some (Except.ok st) ∧ st.changes = []) := by
  refine ⟨by decide, ⟨_, rfl, by decide⟩, ⟨_, rfl, by decide⟩, ⟨_, rfl, by decide⟩⟩

end WatchThatDir
